import Mathlib

/-!
Verification of the battle_game repository: a shallow embedding in Lean 4 of
the hex-grid algebra (src/src/battle_game/shared/hex_math.py), the per-tick
simulation engine (src/server/engine.py, class GameEngine), and the match
start endpoint (src/server/main.py), together with proofs and refutations of
the specification claims about them.

Modelling conventions:
* Python ints are Int (map coordinates, MP, resources) or Nat where the
  source guarantees non-negativity (hex distances, hash values, tick fuel).
* Python floats (unit HP, combat damage) are modelled as exact rationals;
  none of the settled claims depends on IEEE rounding.
* Python dicts are association lists preserving insertion order, with
  first-match lookup (dict keys are unique at every construction site).
* The nondeterministic inputs of the engine are passed as parameters:
  hashFn models the per-process Python string hash composed with abs, and
  gen models the stream of uuid4().hex prefixes consumed by BUILD orders.
-/

namespace BattleGame

/-! ## Hex algebra: src/src/battle_game/shared/hex_math.py -/

/-- Axial hex coordinate, class Hex (frozen dataclass with fields q, r). -/
structure Hex where
  q : Int
  r : Int
deriving DecidableEq, Repr

/-- Property s: the implicit third cube coordinate. -/
def Hex.s (h : Hex) : Int := -h.q - h.r

/-- Method Hex.add. -/
def Hex.add (a b : Hex) : Hex := ⟨a.q + b.q, a.r + b.r⟩

/-- Method Hex.sub. -/
def Hex.sub (a b : Hex) : Hex := ⟨a.q - b.q, a.r - b.r⟩

/-- HEX_DIRECTIONS: the six neighbor offsets, in source order. -/
def HEX_DIRECTIONS : List Hex :=
  [⟨1, 0⟩, ⟨1, -1⟩, ⟨0, -1⟩, ⟨-1, 0⟩, ⟨-1, 1⟩, ⟨0, 1⟩]

/-- hex_length: int((|q| + |r| + |s|) / 2).  The sum of the three absolute
values is always even, so Python float division plus int truncation equals
exact Nat division. -/
def hex_length (h : Hex) : Nat := (h.q.natAbs + h.r.natAbs + h.s.natAbs) / 2

/-- hex_distance(a, b) = hex_length(a - b). -/
def hex_distance (a b : Hex) : Nat := hex_length (a.sub b)

/-- hex_neighbors: the six adjacent hexes. -/
def hex_neighbors (h : Hex) : List Hex := HEX_DIRECTIONS.map (fun d => h.add d)

/-- A Python runtime error raised while a generator is consumed. -/
inductive PyError where
  | typeError
deriving DecidableEq, Repr

/-- hex_ring(center, radius).  For radius = 0 the source yields the center
and returns.  For radius ≥ 1 the first statement of the generator body
evaluates HEX_DIRECTIONS[4] * radius, but class Hex defines no scalar
multiplication (only add and sub), so consuming the generator raises
TypeError before any hex is produced. -/
def hex_ring (center : Hex) (radius : Nat) : Except PyError (List Hex) :=
  if radius = 0 then .ok [center]
  else .error .typeError

/-! ## Data model: src/shared/schemas.py (the parts the engine reads) -/

/-- Enum UnitType. -/
inductive UnitType where
  | CHIEF
  | LIGHT_INFANTRY
  | SCOUT
  | ARMORED
  | MECHANIZED
  | SPECIAL_FORCES
deriving DecidableEq, Repr

/-- Enum GameStatus. -/
inductive GameStatus where
  | WAITING
  | ACTIVE
  | FINISHED
deriving DecidableEq, Repr

/-- Model Resources: three integer pools (pydantic defaults 0). -/
structure Resources where
  M : Int
  F : Int
  I : Int
deriving DecidableEq, Repr

/-- Model UnitState.  HP is a Python float, modelled as an exact rational;
owner is Optional[str]. -/
structure UnitState where
  id : String
  type : UnitType
  q : Int
  r : Int
  hp : ℚ
  mp : Int
  owner : Option String
deriving DecidableEq, Repr

/-- Model FacilityState (the build queue field is never read by the engine
and is omitted). -/
structure FacilityState where
  id : String
  q : Int
  r : Int
  owner : Option String
deriving DecidableEq, Repr

/-- Model Event.  One constructor per event `type` string emitted by the
engine, carrying exactly the payload the source puts in `details`; `loc` is
the HexCoord field.  COMBAT carries CombatDetails (the `attacker` field is
always the literal "Enemies" and `damage_in` is the raw budget consumed);
ELIMINATION carries the `res` string and, for a WIN, the winner (itself an
Optional owner). -/
inductive Event where
  | COMBAT (loc : Hex) (attacker : String) (defender : Option String)
      (damage_in : ℚ) (casualties : List String)
  | BUILD (loc : Hex) (unit : UnitType) (owner : String)
  | RESEARCH (loc : Hex) (tech_id : String) (owner : String)
  | ELIMINATION (loc : Hex) (res : String) (winner : Option String)
deriving DecidableEq, Repr

/-- The fields of GameState that process_tick reads or writes: tick,
game_status, you.units, you.facilities and events.  (you.resources is a
placeholder view injected by main.py and visible_changes is never touched
by the engine.) -/
structure GameState where
  tick : Int
  game_status : GameStatus
  units : List UnitState
  facilities : List FacilityState
  events : List Event
deriving DecidableEq, Repr

/-- Validated orders (shared.schemas.Order after its field validators: a
MOVE carries a destination, a BUILD a unit kind, a RESEARCH a tech id).
Orders whose optional payload fields are unset are silently dropped by the
engine and are not modelled. -/
inductive Order where
  | MOVE (id : String) (dest : Hex)
  | BUILD (fac_id : String) (unit : UnitType)
  | RESEARCH (tech_id : String)
deriving DecidableEq, Repr

/-! ## Python dict / association list helpers -/

/-- dict lookup (first match; every dict in the engine has unique keys). -/
def alookup {α : Type} (m : List (String × α)) (k : String) : Option α :=
  (m.find? (fun p => p.1 = k)).map (fun p => p.2)

/-- In-place mutation of the value stored under a key (the entry alookup
returns): a no-op when the key is absent (mirroring Python code that
mutates the object returned by dict.get and discards it when the dict had
no entry). -/
def aupdate {α : Type} : List (String × α) → String → (α → α) → List (String × α)
  | [], _, _ => []
  | p :: rest, k, f =>
      if p.1 = k then (p.1, f p.2) :: rest else p :: aupdate rest k f

/-- dict assignment d[k] = v: overwrites in place, or appends a new entry
(Python dicts preserve insertion order). -/
def aset {α : Type} : List (String × α) → String → α → List (String × α)
  | [], k, v => [(k, v)]
  | p :: rest, k, v =>
      if p.1 = k then (p.1, v) :: rest else p :: aset rest k v

/-- Membership test k in d. -/
def amem {α : Type} (m : List (String × α)) (k : String) : Bool :=
  m.any (fun p => p.1 = k)

/-! ## Engine constants and stat tables: src/server/engine.py -/

/-- DEF_CONSTANT. -/
def DEF_CONSTANT : ℚ := 25

/-- UNIT_COSTS: cost table; CHIEF has no entry. -/
def UNIT_COSTS : UnitType → Option Resources
  | .LIGHT_INFANTRY => some ⟨40, 0, 0⟩
  | .SCOUT => some ⟨60, 0, 0⟩
  | .ARMORED => some ⟨120, 40, 0⟩
  | .MECHANIZED => some ⟨140, 60, 0⟩
  | .SPECIAL_FORCES => some ⟨80, 0, 30⟩
  | .CHIEF => none

/-- UNIT_COSTS.get(kind, \x7b\x7d) followed by costs.get(key, 0) for each
pool: a kind with no entry costs 0, 0, 0. -/
def costOf (t : UnitType) : Resources := (UNIT_COSTS t).getD ⟨0, 0, 0⟩

/-- UNIT_UPKEEP: fuel upkeep per 10 ticks. -/
def UNIT_UPKEEP : UnitType → Option Int
  | .ARMORED => some 4
  | .MECHANIZED => some 6
  | _ => none

/-- RESEARCH_COST. -/
def RESEARCH_COST : Int := 200

/-- GameEngine._get_unit_stats, hp component (the default arm for an
unknown kind is unreachable: all six kinds are listed). -/
def unitMaxHp : UnitType → ℚ
  | .CHIEF => 150
  | .ARMORED => 120
  | .SCOUT => 40
  | .LIGHT_INFANTRY => 60
  | .MECHANIZED => 90
  | .SPECIAL_FORCES => 80

/-- GameEngine._get_unit_stats, mp component. -/
def unitMaxMp : UnitType → Int
  | .CHIEF => 1
  | .ARMORED => 1
  | .SCOUT => 3
  | .LIGHT_INFANTRY => 2
  | .MECHANIZED => 2
  | .SPECIAL_FORCES => 2

/-- GameEngine._get_base_atk(u_type, upgrades): base attack with the
INFANTRY_TIER_1 multiplier for LightInfantry. -/
def getBaseAtk (t : UnitType) (upgrades : List String) : ℚ :=
  let base : ℚ :=
    match t with
    | .ARMORED => 20
    | .MECHANIZED => 18
    | .SPECIAL_FORCES => 14
    | .CHIEF => 12
    | .SCOUT => 6
    | .LIGHT_INFANTRY => 10
  let mult : ℚ :=
    if t = .LIGHT_INFANTRY ∧ "INFANTRY_TIER_1" ∈ upgrades then 1 + 1/10 else 1
  base * mult

/-- GameEngine._get_base_def(u_type, upgrades). -/
def getBaseDef (t : UnitType) (upgrades : List String) : ℚ :=
  let base : ℚ :=
    match t with
    | .ARMORED => 16
    | .MECHANIZED => 12
    | .SPECIAL_FORCES => 10
    | .CHIEF => 12
    | .SCOUT => 4
    | .LIGHT_INFANTRY => 6
  let mult : ℚ :=
    if t = .LIGHT_INFANTRY ∧ "INFANTRY_TIER_1" ∈ upgrades then 1 + 1/10 else 1
  base * mult

/-! ## Engine-held stores (GameEngine attributes) and the position index -/

/-- The authoritative per-player stores held on the GameEngine object:
player_resources (a plain dict) and player_upgrades (a defaultdict(list);
a missing entry reads as the empty list), plus the map_radius attribute. -/
structure EngineCtx where
  map_radius : Int
  resources : List (String × Resources)
  upgrades : List (String × List String)
deriving DecidableEq, Repr

/-- player_upgrades lookup with the defaultdict default.  Keys of Python
dicts may be None here (the engine calls .get(owner_def, []) with an
Optional owner); None is never a key. -/
def upgradesOf (eng : EngineCtx) (owner : Option String) : List String :=
  match owner with
  | some o => (alookup eng.upgrades o).getD []
  | none => []

/-- unit_positions: defaultdict(list) from Hex to the units indexed there.
Modelled as an insertion-ordered association list from Hex to unit ids; the
unit objects it aliases are recovered by id lookup in the live unit list. -/
abbrev PosIndex := List (Hex × List String)

/-- Append a unit id to the bucket of a hex (defaultdict access followed by
list.append). -/
def posInsert : PosIndex → Hex → String → PosIndex
  | [], h, uid => [(h, [uid])]
  | p :: rest, h, uid =>
      if p.1 = h then (p.1, p.2 ++ [uid]) :: rest
      else p :: posInsert rest h uid

/-- unit_positions.get(h, []) / unit_positions[h] read access. -/
def posGet (idx : PosIndex) (h : Hex) : List String :=
  ((idx.find? (fun p => p.1 = h)).map (fun p => p.2)).getD []

/-- The index built in process_tick step 1: a bucket per occupied hex, in
first-occupancy order, each bucket in unit-list order. -/
def buildPosIndex (units : List UnitState) : PosIndex :=
  units.foldl (fun idx u => posInsert idx ⟨u.q, u.r⟩ u.id) []

/-- units_by_id[uid]: Python dict comprehension keeps the last unit with a
given id. -/
def unitsById (units : List UnitState) (uid : String) : Option UnitState :=
  units.reverse.find? (fun u => u.id = uid)

/-- facilities_by_id[fid], last occurrence wins. -/
def facilitiesById (facs : List FacilityState) (fid : String) :
    Option FacilityState :=
  facs.reverse.find? (fun f => f.id = fid)

/-- The hex a unit occupies. -/
def unitHex (u : UnitState) : Hex := ⟨u.q, u.r⟩

/-! ## Phase 0: GameEngine._reset_mp_and_upkeep -/

/-- The loop body of _reset_mp_and_upkeep for one unit: refresh MP to the
kind's maximum; on an upkeep tick, a unit with an upkeep cost instead
either debits its owner's Fuel and refuels fully, or (owner unknown or
Fuel insufficient) is starved to max(0, int(max_mp * 0.75)) with no debit.
int truncation on the float product equals floor, i.e. Int division by 4
of 3 * max_mp for the non-negative table values. -/
def upkeepUnit (tick : Int) (res : List (String × Resources))
    (u : UnitState) : List (String × Resources) × UnitState :=
  let max_mp := unitMaxMp u.type
  match (if tick % 10 = 0 then UNIT_UPKEEP u.type else none) with
  | some cost =>
      match u.owner.bind (fun o => (alookup res o).map (fun r => (o, r))) with
      | some (o, r) =>
          if cost ≤ r.F then
            (aupdate res o (fun r0 => { r0 with F := r0.F - cost }),
             { u with mp := max_mp })
          else (res, { u with mp := max 0 ((3 * max_mp) / 4) })
      | none => (res, { u with mp := max 0 ((3 * max_mp) / 4) })
  | none => (res, { u with mp := max_mp })

/-- _reset_mp_and_upkeep: the loop over state.you.units, threading the
resource store left to right. -/
def resetMpAndUpkeep (tick : Int) (res : List (String × Resources)) :
    List UnitState → List (String × Resources) × List UnitState
  | [] => (res, [])
  | u :: rest =>
      let p := upkeepUnit tick res u
      let q := resetMpAndUpkeep tick p.1 rest
      (q.1, p.2 :: q.2)

/-! ## Phase 1: GameEngine._handle_research -/

/-- _handle_research for one RESEARCH order.  player_resources.get with a
default fresh Resources() means an unknown player reads pools of zero and
any debit of the fresh object is discarded; since 0 < RESEARCH_COST the
unknown-player case always drops the order.  player_upgrades is a
defaultdict, so a successful research may create the player's entry. -/
def handleResearch (player : String) (tech : String) (eng : EngineCtx)
    (events : List Event) : EngineCtx × List Event :=
  let ups := (alookup eng.upgrades player).getD []
  if tech ∈ ups then (eng, events)
  else
    match alookup eng.resources player with
    | some r =>
        if RESEARCH_COST ≤ r.I then
          ({ eng with
              resources := aupdate eng.resources player
                (fun r0 => { r0 with I := r0.I - RESEARCH_COST }),
              upgrades := aset eng.upgrades player (ups ++ [tech]) },
           events ++ [.RESEARCH ⟨0, 0⟩ tech player])
        else (eng, events)
    | none => (eng, events)

/-- The research pass over the order list (the source runs this pass twice
per tick; the second pass is kept in process_tick below). -/
def researchPhase (eng : EngineCtx) (events : List Event) :
    List (String × Order) → EngineCtx × List Event
  | [] => (eng, events)
  | po :: rest =>
      match po.2 with
      | .RESEARCH tech =>
          let r := handleResearch po.1 tech eng events
          researchPhase r.1 r.2 rest
      | _ => researchPhase eng events rest

/-! ## Phase 2: GameEngine._handle_build -/

/-- The mutable state threaded through the build pass: the engine stores,
the live unit list, the position index, the event list and the counter of
uuid draws consumed so far. -/
structure BuildSt where
  eng : EngineCtx
  units : List UnitState
  idx : PosIndex
  events : List Event
  ctr : Nat
deriving Repr

/-- _handle_build for one BUILD order: the facility must exist and belong
to the submitter and its hex must hold fewer than 10 indexed units; the
cost (0,0,0 for a kind without a UNIT_COSTS entry) is checked against the
submitter's pools (zero pools for an unknown player) and debited; a fresh
unit with full HP and MP spawns at the facility hex, entering both the
unit list and the position index. -/
def handleBuild (gen : Nat → String) (player : String) (facId : String)
    (kind : UnitType) (facs : List FacilityState) (st : BuildSt) : BuildSt :=
  match facilitiesById facs facId with
  | none => st
  | some fac =>
      if fac.owner ≠ some player then st
      else
        let loc : Hex := ⟨fac.q, fac.r⟩
        if 10 ≤ (posGet st.idx loc).length then st
        else
          let costs := costOf kind
          let r := (alookup st.eng.resources player).getD ⟨0, 0, 0⟩
          if costs.M ≤ r.M ∧ costs.F ≤ r.F ∧ costs.I ≤ r.I then
            let uid := "u_" ++ gen st.ctr
            let newUnit : UnitState :=
              ⟨uid, kind, fac.q, fac.r, unitMaxHp kind, unitMaxMp kind,
               some player⟩
            { eng := { st.eng with
                resources := aupdate st.eng.resources player
                  (fun r0 => ⟨r0.M - costs.M, r0.F - costs.F, r0.I - costs.I⟩) },
              units := st.units ++ [newUnit],
              idx := posInsert st.idx loc uid,
              events := st.events ++ [.BUILD loc kind player],
              ctr := st.ctr + 1 }
          else st

/-- The build pass over the order list. -/
def buildPhase (gen : Nat → String) (facs : List FacilityState) :
    BuildSt → List (String × Order) → BuildSt
  | st, [] => st
  | st, po :: rest =>
      match po.2 with
      | .BUILD facId kind =>
          buildPhase gen facs (handleBuild gen po.1 facId kind facs st) rest
      | _ => buildPhase gen facs st rest

/-! ## Phase 3: GameEngine._resolve_movement -/

/-- One movement intent: (unit id, target hex, origin hex).  The source
keeps two dicts keyed identically (intentions and origins); they are merged
into one insertion-ordered dict here. -/
abbrev Intents := List (String × Hex × Hex)

/-- dict assignment for the merged intent dict: a repeated order for the
same unit overwrites the value but keeps the original insertion slot. -/
def intentSet : Intents → String → Hex × Hex → Intents
  | [], uid, v => [(uid, v)]
  | p :: rest, uid, v =>
      if p.1 = uid then (p.1, v) :: rest
      else p :: intentSet rest uid v

/-- Intent lookup (dict access; keys are unique by construction). -/
def intentGet (m : Intents) (uid : String) : Option (Hex × Hex) :=
  (m.find? (fun p => p.1 = uid)).map (fun p => p.2)

/-- One iteration of the intent-recording loop of _resolve_movement: a
MOVE order whose target is farther than map_radius from the world center
Hex(0, 0) is dropped; otherwise the target and the unit's current hex are
recorded.  No check whatsoever reads the unit's MP or the distance from
the origin. -/
def intentStep (mapRadius : Int) (unitsPre : List UnitState) (m : Intents)
    (o : Order) : Intents :=
  match o with
  | .MOVE uid dest =>
      match unitsById unitsPre uid with
      | some u =>
          if mapRadius < (hex_distance ⟨0, 0⟩ dest : Int) then m
          else intentSet m uid (dest, ⟨u.q, u.r⟩)
      | none => m
  | _ => m

/-- The intent-recording loop of _resolve_movement over move_orders. -/
def movementIntents (mapRadius : Int) (unitsPre : List UnitState)
    (move_orders : List Order) : Intents :=
  move_orders.foldl (intentStep mapRadius unitsPre) []

/-- targets_map: the intents grouped by target hex, in first-appearance
order of the targets, each group in intent order. -/
def groupByTarget (m : Intents) : List (Hex × List String) :=
  m.foldl (fun g p => posInsert g p.2.1 p.1) []

/-- The sort key of sub-phase A: units_by_id[x].mp * 1000 + abs(hash(x)).
The per-process string hash is the parameter hashFn (already composed with
abs, hence a Nat). -/
def sortKey (hashFn : String → Nat) (unitsPre : List UnitState)
    (uid : String) : Int :=
  ((unitsById unitsPre uid).map (fun u => u.mp)).getD 0 * 1000 + (hashFn uid : Int)

/-- uids.sort(key, reverse=True) followed by taking uids[0]: the stable
descending sort puts first the earliest-listed uid of maximal key. -/
def pickWinner (key : String → Int) : List String → Option String
  | [] => none
  | x :: xs => some (xs.foldl (fun w y => if key w < key y then y else w) x)

/-- The losers a contested target contributes to the bounced set: with at
least two contenders, everyone but the winner uids[0] of the descending
stable sort. -/
def phaseALosers (key : String → Int) (p : Hex × List String) : Finset String :=
  if 1 < p.2.length then
    match pickWinner key p.2 with
    | some w => (p.2.filter (fun u => u ≠ w)).toFinset
    | none => ∅
  else ∅

/-- Sub-phase A: for every target with at least two intents, every
contender except the winner joins the bounced set. -/
def phaseA (key : String → Int) (m : Intents) : Finset String :=
  (groupByTarget m).foldl (fun b p => b ∪ phaseALosers key p) ∅

/-- The hostile head-to-head test of sub-phase B for one occupant of the
mover's target: the occupant has an intent back to the mover's origin and
belongs to a different owner. -/
def swapHostile (allUnits unitsPre : List UnitState) (m : Intents)
    (uid : String) (origin : Hex) (occId : String) : Bool :=
  match intentGet m occId with
  | some (occTarget, _) =>
      occTarget = origin ∧
        ((unitsById allUnits occId).map (fun u => u.owner)).getD none ≠
          ((unitsById unitsPre uid).map (fun u => u.owner)).getD none
  | none => false

/-- One iteration of the sub-phase B outer loop: a mover already bounced
is skipped; otherwise every occupant of its target is tested for a hostile
swap, and each hit adds both ends. -/
def phaseBStep (allUnits unitsPre : List UnitState) (idx : PosIndex)
    (m : Intents) (b : Finset String) (p : String × Hex × Hex) :
    Finset String :=
  if p.1 ∈ b then b
  else
    (posGet idx p.2.1).foldl
      (fun b2 occId =>
        if swapHostile allUnits unitsPre m p.1 p.2.2 occId then
          insert occId (insert p.1 b2)
        else b2)
      b

/-- Sub-phase B: both ends of a hostile head-to-head swap bounce.  The
bounced set evolves while the loop runs, exactly as in the source. -/
def phaseB (allUnits unitsPre : List UnitState) (idx : PosIndex)
    (m : Intents) (b0 : Finset String) : Finset String :=
  m.foldl (phaseBStep allUnits unitsPre idx m) b0

/-- The blocked test of sub-phase C for one mover against the (stale)
occupants of its target: a hostile occupant always blocks; a friendly
occupant with no intent, or with an intent already bounced, blocks when
the occupant count is at least 10. -/
def blockedC (allUnits unitsPre : List UnitState) (idx : PosIndex)
    (m : Intents) (b : Finset String) (uid : String) (target : Hex) : Bool :=
  let occupiers := posGet idx target
  occupiers.any (fun occId =>
    let occOwner : Option String :=
      ((unitsById allUnits occId).map (fun u => u.owner)).getD none
    let uidOwner : Option String :=
      ((unitsById unitsPre uid).map (fun u => u.owner)).getD none
    if occOwner ≠ uidOwner then true
    else if ¬ (m.any (fun p => p.1 = occId)) then 10 ≤ occupiers.length
    else if occId ∈ b then 10 ≤ occupiers.length
    else false)

/-- One iteration of a sub-phase C pass, for a single intent. -/
def phaseCOne (allUnits unitsPre : List UnitState) (idx : PosIndex)
    (m : Intents) (b : Finset String) (p : String × Hex × Hex) :
    Finset String :=
  if p.1 ∈ b then b
  else if blockedC allUnits unitsPre idx m b p.1 p.2.1 then insert p.1 b
  else b

/-- One full pass of the sub-phase C while-loop: scan every intent in
order against the evolving bounced set, adding every blocked mover. -/
def phaseCstep (allUnits unitsPre : List UnitState) (idx : PosIndex)
    (m : Intents) (b0 : Finset String) : Finset String :=
  m.foldl (phaseCOne allUnits unitsPre idx m) b0

/-- The fixed point of sub-phase C.  The source loops until a pass adds
nothing; the bounced set grows monotonically inside the set of intent ids,
so the pass function reaches its fixed point within length-many passes and
iterating it length + 1 times lands on the same set (proved below). -/
def phaseC (allUnits unitsPre : List UnitState) (idx : PosIndex)
    (m : Intents) (b0 : Finset String) : Finset String :=
  (phaseCstep allUnits unitsPre idx m)^[m.length + 1] b0

/-- The complete bounced set computed by _resolve_movement. -/
def movementBounced (hashFn : String → Nat) (allUnits unitsPre : List UnitState)
    (idx : PosIndex) (m : Intents) : Finset String :=
  phaseC allUnits unitsPre idx m
    (phaseB allUnits unitsPre idx m (phaseA (sortKey hashFn unitsPre) m))

/-- The execution loop: every unit whose intent survived all three
sub-phases is teleported to its target and pays one MP, floored at zero. -/
def execMoves (allUnits : List UnitState) (m : Intents)
    (bounced : Finset String) : List UnitState :=
  allUnits.map (fun u =>
    match intentGet m u.id with
    | some (target, _) =>
        if u.id ∈ bounced then u
        else { u with q := target.q, r := target.r, mp := max 0 (u.mp - 1) }
    | none => u)

/-- _resolve_movement: record intents, bounce, execute.  unitsPre is the
unit list captured by units_by_id before the build phase; allUnits is the
live unit list (including units built this tick); idx is the position
index, which the source never refreshes after movement. -/
def resolve_movement (hashFn : String → Nat) (mapRadius : Int)
    (allUnits unitsPre : List UnitState) (idx : PosIndex)
    (move_orders : List Order) : List UnitState :=
  let m := movementIntents mapRadius unitsPre move_orders
  execMoves allUnits m (movementBounced hashFn allUnits unitsPre idx m)

/-! ## Phase 4: GameEngine._resolve_combat -/

/-- Dereference an indexed unit id to the owner of the live unit object it
aliases (total; the default arm is unreachable for indexes built from the
live unit list). -/
def idOwner (units : List UnitState) (uid : String) : Option String :=
  ((unitsById units uid).map (fun u => u.owner)).getD none

/-- Dereference an indexed unit id to its current HP. -/
def hpOf (units : List UnitState) (uid : String) : ℚ :=
  ((unitsById units uid).map (fun u => u.hp)).getD 0

/-- Insert a defender id behind every already-placed defender of equal or
smaller HP (the stable ascending sort defenders.sort(key=hp)). -/
def sortDefInsert (units : List UnitState) (uid : String) :
    List String → List String
  | [] => [uid]
  | v :: vs =>
      if hpOf units v ≤ hpOf units uid then v :: sortDefInsert units uid vs
      else uid :: v :: vs

/-- Stable insertion sort of the defending stack by current HP ascending. -/
def sortDefenders (units : List UnitState) (l : List String) : List String :=
  l.foldl (fun acc u => sortDefInsert units u acc) []

/-- The raw damage entering a hex: over the six neighbors in direction
order, over every indexed unit there whose owner differs from the stack
owner, base attack (with the attacker-owner upgrades) scaled by current
HP over max HP. -/
def incomingRaw (eng : EngineCtx) (allUnits : List UnitState) (idx : PosIndex)
    (ownerDef : Option String) (loc : Hex) : ℚ :=
  (hex_neighbors loc).foldl
    (fun acc n =>
      (posGet idx n).foldl
        (fun s occId =>
          match unitsById allUnits occId with
          | some a =>
              if a.owner ≠ ownerDef then
                s + getBaseAtk a.type (upgradesOf eng a.owner) *
                  (a.hp / unitMaxHp a.type)
              else s
          | none => s)
        acc)
    0

/-- The damage-distribution loop over the HP-sorted defending stack: stop
once the remaining raw budget is non-positive; a defender whose effective
HP fits in the budget is killed (pending damage = its whole HP, a COMBAT
event is emitted); otherwise the entire remaining budget lands on it,
scaled down by its mitigation, and the budget is exhausted.  terrain_def
is the source placeholder 0. -/
def distributeDamage (allUnits : List UnitState) (defUpgrades : List String)
    (loc : Hex) :
    List String → ℚ → List (String × ℚ) → List Event →
      List (String × ℚ) × List Event
  | [], _, pend, evs => (pend, evs)
  | uid :: rest, rem, pend, evs =>
      if rem ≤ 0 then (pend, evs)
      else
        match unitsById allUnits uid with
        | none => distributeDamage allUnits defUpgrades loc rest rem pend evs
        | some u =>
            let totalDef := getBaseDef u.type defUpgrades + 0
            let mit := totalDef / (totalDef + DEF_CONSTANT)
            let ehp := u.hp / (1 - mit)
            if ehp ≤ rem then
              distributeDamage allUnits defUpgrades loc rest (rem - ehp)
                (aset pend uid u.hp)
                (evs ++ [.COMBAT loc "Enemies" u.owner ehp [uid]])
            else
              distributeDamage allUnits defUpgrades loc rest 0
                (aset pend uid (rem * (1 - mit))) evs

/-- The body of the per-hex loop of _resolve_combat: skip an empty bucket;
read the stack owner off the first indexed unit; skip when no raw damage
comes in; otherwise distribute over the HP-sorted stack.  Neighbor lookups
go through the full index idx. -/
def combatHexStep (eng : EngineCtx) (allUnits : List UnitState)
    (idx : PosIndex) (acc : List (String × ℚ) × List Event)
    (p : Hex × List String) : List (String × ℚ) × List Event :=
  match p.2 with
  | [] => acc
  | d0 :: _ =>
      let ownerDef := idOwner allUnits d0
      let total := incomingRaw eng allUnits idx ownerDef p.1
      if total ≤ 0 then acc
      else
        distributeDamage allUnits (upgradesOf eng ownerDef) p.1
          (sortDefenders allUnits p.2) total acc.1 acc.2

/-- The per-hex loop of _resolve_combat, producing the map-wide pending
damage dict and the emitted COMBAT events.  The hex iteration order is the
index insertion order. -/
def combatPending (eng : EngineCtx) (allUnits : List UnitState)
    (idx : PosIndex) (events : List Event) :
    List (String × ℚ) × List Event :=
  idx.foldl (combatHexStep eng allUnits idx) ([], events)

/-- Apply the pending damage to every unit, then keep exactly the units
whose HP stays above 0.5. -/
def applyDamage (units : List UnitState) (pend : List (String × ℚ)) :
    List UnitState :=
  (units.map (fun u =>
    match alookup pend u.id with
    | some d => { u with hp := u.hp - d }
    | none => u)).filter (fun u => 1/2 < u.hp)

/-- _resolve_combat: compute all incoming values from the (stale) position
index, then apply the damage simultaneously and prune. -/
def resolve_combat (eng : EngineCtx) (allUnits : List UnitState)
    (idx : PosIndex) (events : List Event) : List UnitState × List Event :=
  let pe := combatPending eng allUnits idx events
  (applyDamage allUnits pe.1, pe.2)

/-! ## Phase 5: GameEngine._check_victory -/

/-- active_chiefs: the distinct owners of surviving Chiefs (a Python set;
only emptiness, cardinality one, and the sole member are consumed). -/
def chiefOwners (units : List UnitState) : List (Option String) :=
  ((units.filter (fun u => u.type = .CHIEF)).map (fun u => u.owner)).dedup

/-- _check_victory: no Chief owner is a DRAW, a single owner a WIN,
otherwise nothing changes. -/
def checkVictory (state : GameState) : GameState :=
  if chiefOwners state.units = [] then
    { state with
        game_status := .FINISHED
        events := state.events ++ [.ELIMINATION ⟨0, 0⟩ "DRAW" none] }
  else if (chiefOwners state.units).length = 1 then
    { state with
        game_status := .FINISHED
        events := state.events ++
          [.ELIMINATION ⟨0, 0⟩ "WIN" ((chiefOwners state.units).headD none)] }
  else state

/-! ## GameEngine.process_tick -/

/-- The MOVE-order filter of process_tick: the named unit must exist in the
pre-build units_by_id map and be owned by the submitting player. -/
def filterMoveOrders (unitsPre : List UnitState)
    (orders : List (String × Order)) : List Order :=
  orders.filterMap (fun po =>
    match po.2 with
    | .MOVE uid dest =>
        match unitsById unitsPre uid with
        | some u => if u.owner = some po.1 then some (Order.MOVE uid dest) else none
        | none => none
    | _ => none)

/-- process_tick(state, orders): increment the tick, clear events, run
upkeep, build the position index, run the research pass, the build pass,
the research pass a second time (as the source does), filter and resolve
movement, resolve combat against the index that was never rebuilt after
movement, and check victory.  hashFn and gen supply the process string
hash and the uuid4 hex draws. -/
def process_tick (hashFn : String → Nat) (gen : Nat → String)
    (eng : EngineCtx) (state : GameState) (orders : List (String × Order)) :
    EngineCtx × GameState :=
  let tick1 := state.tick + 1
  let p0 := resetMpAndUpkeep tick1 eng.resources state.units
  let eng0 : EngineCtx := { eng with resources := p0.1 }
  let unitsPre := p0.2
  let idx0 := buildPosIndex unitsPre
  let r1 := researchPhase eng0 [] orders
  let bst := buildPhase gen state.facilities ⟨r1.1, unitsPre, idx0, r1.2, 0⟩ orders
  let r2 := researchPhase bst.eng bst.events orders
  let move_orders := filterMoveOrders unitsPre orders
  let units2 :=
    resolve_movement hashFn eng.map_radius bst.units unitsPre bst.idx move_orders
  let cb := resolve_combat r2.1 units2 bst.idx r2.2
  (r2.1,
   checkVictory
     { tick := tick1, game_status := state.game_status, units := cb.1,
       facilities := state.facilities, events := cb.2 })

/-- Modelled from the spec (Phase 4: "Rebuild the position index (units by
hex)"): the same tick pipeline, except that the combat phase reads a
position index rebuilt from the units' post-movement positions.  Present
only for comparison against process_tick; the source never rebuilds. -/
def process_tick_rebuilt (hashFn : String → Nat) (gen : Nat → String)
    (eng : EngineCtx) (state : GameState) (orders : List (String × Order)) :
    EngineCtx × GameState :=
  let tick1 := state.tick + 1
  let p0 := resetMpAndUpkeep tick1 eng.resources state.units
  let eng0 : EngineCtx := { eng with resources := p0.1 }
  let unitsPre := p0.2
  let idx0 := buildPosIndex unitsPre
  let r1 := researchPhase eng0 [] orders
  let bst := buildPhase gen state.facilities ⟨r1.1, unitsPre, idx0, r1.2, 0⟩ orders
  let r2 := researchPhase bst.eng bst.events orders
  let move_orders := filterMoveOrders unitsPre orders
  let units2 :=
    resolve_movement hashFn eng.map_radius bst.units unitsPre bst.idx move_orders
  let cb := resolve_combat r2.1 units2 (buildPosIndex units2) r2.2
  (r2.1,
   checkVictory
     { tick := tick1, game_status := state.game_status, units := cb.1,
       facilities := state.facilities, events := cb.2 })

/-! ## src/server/main.py: the match registry and POST start -/

/-- The match registry: games maps match ids to the current state held by
each match engine (only game_status matters to start_match). -/
structure ServerSt where
  games : List (String × GameState)
deriving DecidableEq, Repr

/-- Endpoint start_match (POST /match/\x7bmatch_id\x7d/start): raise a 404
when the id is unknown, otherwise unconditionally set the game status of
the stored state to ACTIVE.  The source performs no check of the previous
status. -/
def start_match (srv : ServerSt) (mid : String) : Except String ServerSt :=
  if ¬ amem srv.games mid then .error "Match not found"
  else
    .ok ⟨aupdate srv.games mid (fun st => { st with game_status := .ACTIVE })⟩

/-! ## Analysis helpers and concrete fixtures used by the theorems -/

/-- Freshness of the first n uuid draws with respect to a unit list: none
of the generated ids collides with an existing unit id, and the draws are
pairwise distinct. -/
def FreshGen (gen : Nat → String) (units : List UnitState) (n : Nat) : Prop :=
  (∀ k < n, ("u_" ++ gen k) ∉ units.map (fun u => u.id)) ∧
  (∀ k < n, ∀ l < n, k ≠ l → ("u_" ++ gen k) ≠ ("u_" ++ gen l))

instance (gen : Nat → String) (units : List UnitState) (n : Nat) :
    Decidable (FreshGen gen units n) := by
  unfold FreshGen; infer_instance

/-- Every entry of a resource store has non-negative M, F and I pools. -/
def NonnegStore (res : List (String × Resources)) : Prop :=
  ∀ pr ∈ res, 0 ≤ pr.2.M ∧ 0 ≤ pr.2.F ∧ 0 ≤ pr.2.I

instance (res : List (String × Resources)) : Decidable (NonnegStore res) := by
  unfold NonnegStore; infer_instance

/-- A sample per-process string hash (any total function works). -/
def fxHash : String → Nat := fun s => s.length

/-- A hash choice making a low-MP contender win sub-phase A. -/
def fxHashW : String → Nat := fun s => if s = "w" then 3000 else 5

/-- A sample uuid4 stream. -/
def fxGen : Nat → String := fun k => toString k

/-- A uuid4 stream that always draws aaaaaa. -/
def fxGenA : Nat → String := fun _ => "aaaaaa"

/-- A uuid4 stream that always draws bbbbbb. -/
def fxGenB : Nat → String := fun _ => "bbbbbb"

/-- A LightInfantry unit at full strength. -/
def fxLI (i ow : String) (q r : Int) : UnitState :=
  ⟨i, .LIGHT_INFANTRY, q, r, 60, 2, some ow⟩

/-- An engine store with two known players and empty pools. -/
def fxEng0 : EngineCtx :=
  ⟨20, [("p_red", ⟨0, 0, 0⟩), ("p_blue", ⟨0, 0, 0⟩)], []⟩

/-- An engine store where p_red owns exactly the cost of one LightInfantry. -/
def fxEngM40 : EngineCtx :=
  ⟨20, [("p_red", ⟨40, 0, 0⟩), ("p_blue", ⟨0, 0, 0⟩)], []⟩

/-- Two hostile LightInfantry far apart: r1 at (5,5), b1 at (0,0). -/
def fxStFar : GameState :=
  ⟨0, .ACTIVE, [fxLI "r1" "p_red" 5 5, fxLI "b1" "p_blue" 0 0], [], []⟩

/-- The single order of the stale-index scenario: r1 moves next to b1. -/
def fxOrdFar : List (String × Order) := [("p_red", .MOVE "r1" ⟨1, 0⟩)]

/-- Two Chiefs and a red facility; red has empty pools. -/
def fxStChiefs : GameState :=
  ⟨0, .ACTIVE,
   [⟨"c_r", .CHIEF, 5, 5, 150, 1, some "p_red"⟩,
    ⟨"c_b", .CHIEF, -5, -5, 150, 1, some "p_blue"⟩],
   [⟨"f1", 0, 0, some "p_red"⟩], []⟩

/-- Same map with red able to afford one LightInfantry build. -/
def fxOrdBuildLI : List (String × Order) := [("p_red", .BUILD "f1" .LIGHT_INFANTRY)]

/-- Contenders for (1,0): the LightInfantry w refreshes to MP 2, the Scout
zz refreshes to MP 3; both are red. -/
def fxStContend : GameState :=
  ⟨0, .ACTIVE,
   [⟨"w", .LIGHT_INFANTRY, 2, 0, 60, 2, some "p_red"⟩,
    ⟨"zz", .SCOUT, 0, 0, 40, 3, some "p_red"⟩],
   [], []⟩

/-- Both contenders order a move onto (1,0). -/
def fxOrdContend : List (String × Order) :=
  [("p_red", .MOVE "w" ⟨1, 0⟩), ("p_red", .MOVE "zz" ⟨1, 0⟩)]

/-- A registry holding one FINISHED match. -/
def fxSrvFin : ServerSt := ⟨[("m1", ⟨3, .FINISHED, [], [], []⟩)]⟩

/-! ## Library lemmas about the dict helpers -/

theorem alookup_cons {α : Type} (p : String × α) (rest : List (String × α))
    (k : String) :
    alookup (p :: rest) k = if p.1 = k then some p.2 else alookup rest k := by
  by_cases h : p.1 = k <;> simp [alookup, List.find?, h]

theorem amem_of_alookup {α : Type} {m : List (String × α)} {k : String}
    {v : α} (h : alookup m k = some v) : amem m k = true := by
  induction m with
  | nil => simp [alookup] at h
  | cons p rest ih =>
      rw [alookup_cons] at h
      by_cases hk : p.1 = k
      · simp [amem, hk]
      · simp [hk] at h
        simp [amem] at ih ⊢
        exact Or.inr (ih h)

theorem alookup_aupdate_self {α : Type} {m : List (String × α)} {k : String}
    {v : α} (f : α → α) (h : alookup m k = some v) :
    alookup (aupdate m k f) k = some (f v) := by
  induction m with
  | nil => simp [alookup] at h
  | cons p rest ih =>
      rw [alookup_cons] at h
      by_cases hk : p.1 = k
      · simp [hk] at h
        subst h
        simp [aupdate, hk, alookup_cons]
      · simp [hk] at h
        simp [aupdate, hk, alookup_cons, ih h]

/-! ## Claim theorems -/

/-- C9: the claim says hex_ring is total and, for every radius ≥ 0, yields
exactly the hexes at that distance.  In the source, class Hex defines no
multiplication, so hex_ring(center, radius) raises TypeError as soon as it
is consumed for any radius ≥ 1, although hexes at that distance exist:
here hex_ring(Hex(0,0), 1) fails while (1,0) lies at distance 1. -/
theorem C9_hex_ring_raises :
    hex_ring ⟨0, 0⟩ 1 = .error .typeError ∧ hex_distance ⟨0, 0⟩ ⟨1, 0⟩ = 1 :=
  ⟨rfl, by decide⟩

/-- C8 counterexample: the claim says start_match is rejected, leaving the
match unchanged, when the status is not WAITING.  On a registry holding a
FINISHED match, start_match succeeds and flips the stored status to
ACTIVE. -/
theorem C8_counterexample :
    fxSrvFin.games = [("m1", ⟨3, .FINISHED, [], [], []⟩)] ∧
    start_match fxSrvFin "m1" = .ok ⟨[("m1", ⟨3, .ACTIVE, [], [], []⟩)]⟩ :=
  ⟨rfl, rfl⟩

/-- C8 amended: start_match fails only when the match id is unknown; for
every known id it succeeds unconditionally — whatever the current status —
and the stored status becomes ACTIVE. -/
theorem C8_amended (srv : ServerSt) (mid : String) :
    (amem srv.games mid = false → start_match srv mid = .error "Match not found") ∧
    (∀ st, alookup srv.games mid = some st →
      start_match srv mid =
        .ok ⟨aupdate srv.games mid (fun s => { s with game_status := .ACTIVE })⟩ ∧
      alookup (aupdate srv.games mid (fun s => { s with game_status := .ACTIVE }))
          mid = some { st with game_status := .ACTIVE }) := by
  constructor
  · intro h
    simp [start_match, h]
  · intro st hst
    refine ⟨?_, alookup_aupdate_self _ hst⟩
    simp [start_match, amem_of_alookup hst]

/-- C8 amended, witness: starting the FINISHED match m1 succeeds and the
stored status becomes ACTIVE. -/
theorem C8_amended_witness :
    start_match fxSrvFin "m1" =
      .ok ⟨aupdate fxSrvFin.games "m1" (fun s => { s with game_status := .ACTIVE })⟩ ∧
    alookup (aupdate fxSrvFin.games "m1" (fun s => { s with game_status := .ACTIVE }))
        "m1" = some ⟨3, .ACTIVE, [], [], []⟩ :=
  (C8_amended fxSrvFin "m1").2 ⟨3, .FINISHED, [], [], []⟩ (by decide)

unseal Rat.add Rat.mul Rat.sub Rat.inv in
/-- C2: the claim (and the spec invariant) says no BUILD order ever creates
a Chief.  Because UNIT_COSTS has no CHIEF entry and the source reads it
with .get(kind, empty-dict) and every pool with .get(key, 0), a BUILD
order for a Chief passes the resource check at zero cost: on a map with
two Chiefs and a red facility, red — with completely empty pools — builds
a third Chief and no resources move. -/
theorem C2_build_chief :
    fxStChiefs.units.countP (fun u => u.type = UnitType.CHIEF) = 2 ∧
    (process_tick fxHash fxGen fxEng0 fxStChiefs
        [("p_red", .BUILD "f1" .CHIEF)]).2.units.countP
      (fun u => u.type = UnitType.CHIEF) = 3 ∧
    (process_tick fxHash fxGen fxEng0 fxStChiefs
        [("p_red", .BUILD "f1" .CHIEF)]).1.resources = fxEng0.resources := by
  decide

unseal Rat.add Rat.mul Rat.sub Rat.inv in
/-- C1 counterexample: the claim says the position index is rebuilt after
movement, so a unit that moved attacks from its new hex.  Here r1 moves
from (5,5) to (1,0), ending adjacent to the hostile b1 at (0,0) — yet,
because the source feeds combat the index built before movement, nobody
takes any damage; the spec-following pipeline that does rebuild the index
deals 250/31 raw-mitigated damage to each of them. -/
theorem C1_counterexample :
    ((process_tick fxHash fxGen fxEng0 fxStFar fxOrdFar).2.units.map
        (fun u => (u.id, u.q, u.r, u.hp)) =
      [("r1", 1, 0, (60 : ℚ)), ("b1", 0, 0, 60)]) ∧
    ((process_tick_rebuilt fxHash fxGen fxEng0 fxStFar fxOrdFar).2.units.map
        (fun u => (u.id, u.q, u.r, u.hp)) =
      [("r1", 1, 0, 1610/31), ("b1", 0, 0, 1610/31)]) ∧
    hex_distance ⟨1, 0⟩ ⟨0, 0⟩ = 1 ∧
    (unitsById fxStFar.units "r1").map (fun u => u.owner) = some (some "p_red") ∧
    (unitsById fxStFar.units "b1").map (fun u => u.owner) = some (some "p_blue") := by
  decide

unseal Rat.add Rat.mul Rat.sub Rat.inv in
/-- C3 counterexample: the claim says two applications of advance to the
same state and orders agree byte-for-byte, including the ids of units
created by BUILD orders.  Unit ids are drawn from uuid4; running the same
successful LightInfantry build with two different uuid streams produces
visibly different states (the new unit is u_aaaaaa in one and u_bbbbbb in
the other). -/
theorem C3_counterexample :
    (process_tick fxHash fxGenA fxEngM40 fxStChiefs fxOrdBuildLI).2 ≠
      (process_tick fxHash fxGenB fxEngM40 fxStChiefs fxOrdBuildLI).2 := by
  decide

unseal Rat.add Rat.mul Rat.sub Rat.inv in
/-- C4 counterexample: the claim says that whenever exactly one contender
has strictly greater current MP, it wins for every choice of the id hash.
The source key is mp * 1000 + abs(hash(id)), so with hash(w) = 3000 and
hash(zz) = 5 the MP-2 LightInfantry w beats the MP-3 Scout zz: w moves to
the contested hex (1,0) and zz bounces at (0,0) with its MP untouched. -/
theorem C4_counterexample :
    unitMaxMp UnitType.SCOUT = 3 ∧ unitMaxMp UnitType.LIGHT_INFANTRY = 2 ∧
    fxHashW "w" = 3000 ∧ fxHashW "zz" = 5 ∧
    (process_tick fxHashW fxGen fxEng0 fxStContend fxOrdContend).2.units.map
        (fun u => (u.id, u.type, u.q, u.r, u.mp)) =
      [("w", UnitType.LIGHT_INFANTRY, 1, 0, 1),
       ("zz", UnitType.SCOUT, 0, 0, 3)] := by
  decide

/-- C7: upkeep semantics of the loop body of _reset_mp_and_upkeep, for a
unit whose owner o holds the pools r.  On an upkeep tick (tick % 10 = 0),
a unit with upkeep cost whose owner lacks the Fuel keeps the store
completely unchanged (no partial debit) and gets MP = max(0, (3·MaxMP)/4),
which equals floor(MaxMP × 0.75); with sufficient Fuel exactly the cost is
debited and MP = MaxMP; on any other tick, or for a unit with no upkeep
entry, the store is unchanged and MP = MaxMP. -/
theorem C7_upkeep (tick : Int) (res : List (String × Resources))
    (u : UnitState) (cost : Int) (o : String) (r : Resources)
    (howner : u.owner = some o) (hres : alookup res o = some r) :
    ((tick % 10 = 0 ∧ UNIT_UPKEEP u.type = some cost ∧ r.F < cost) →
       upkeepUnit tick res u =
         (res, { u with mp := max 0 ((3 * unitMaxMp u.type) / 4) }) ∧
       max 0 ((3 * unitMaxMp u.type) / 4) = ⌊(unitMaxMp u.type : ℚ) * (3 / 4)⌋) ∧
    ((tick % 10 = 0 ∧ UNIT_UPKEEP u.type = some cost ∧ cost ≤ r.F) →
       upkeepUnit tick res u =
         (aupdate res o (fun r0 => { r0 with F := r0.F - cost }),
          { u with mp := unitMaxMp u.type })) ∧
    ((tick % 10 ≠ 0 ∨ UNIT_UPKEEP u.type = none) →
       upkeepUnit tick res u = (res, { u with mp := unitMaxMp u.type })) := by
  refine ⟨?_, ?_, ?_⟩
  · rintro ⟨h10, hupk, hF⟩
    constructor
    · simp [upkeepUnit, h10, hupk, howner, hres, not_le.mpr hF]
    · cases u.type <;> norm_num [unitMaxMp]
  · rintro ⟨h10, hupk, hF⟩
    simp [upkeepUnit, h10, hupk, howner, hres, hF]
  · rintro (h10 | hupk)
    · simp [upkeepUnit, h10]
    · by_cases h10 : tick % 10 = 0 <;> simp [upkeepUnit, h10, hupk]

/-- C7 witness: an Armored unit (upkeep 4, MaxMP 1) whose owner holds
Fuel 2 at tick 10 is starved to MP 0 = floor(1 × 0.75) while the Fuel
stays exactly 2. -/
theorem C7_upkeep_witness :
    upkeepUnit 10 [("p", ⟨0, 2, 0⟩)] ⟨"a1", .ARMORED, 0, 0, 120, 1, some "p"⟩ =
      ([("p", ⟨0, 2, 0⟩)], ⟨"a1", .ARMORED, 0, 0, 120, 0, some "p"⟩) ∧
    max 0 ((3 * unitMaxMp UnitType.ARMORED) / 4) =
      ⌊(unitMaxMp UnitType.ARMORED : ℚ) * (3 / 4)⌋ := by
  have h :=
    (C7_upkeep 10 [("p", ⟨0, 2, 0⟩)] ⟨"a1", .ARMORED, 0, 0, 120, 1, some "p"⟩
        4 "p" ⟨0, 2, 0⟩ rfl (by decide)).1 ⟨by decide, rfl, by decide⟩
  exact ⟨h.1.trans (by decide), h.2⟩

/-! ## Lemmas about intent recording and execution -/

theorem intentGet_cons (p : String × Hex × Hex) (rest : Intents) (k : String) :
    intentGet (p :: rest) k = if p.1 = k then some p.2 else intentGet rest k := by
  by_cases h : p.1 = k <;> simp [intentGet, List.find?, h]

theorem intentGet_intentSet_self (m : Intents) (uid : String) (v : Hex × Hex) :
    intentGet (intentSet m uid v) uid = some v := by
  induction m with
  | nil => simp [intentSet, intentGet, List.find?]
  | cons p rest ih =>
      by_cases h : p.1 = uid
      · rw [intentSet, if_pos h, intentGet_cons, if_pos h]
      · rw [intentSet, if_neg h, intentGet_cons, if_neg h]
        exact ih

theorem intentGet_intentSet_other (m : Intents) (uid uid2 : String)
    (v : Hex × Hex) (h : uid ≠ uid2) :
    intentGet (intentSet m uid v) uid2 = intentGet m uid2 := by
  induction m with
  | nil =>
      rw [intentSet, intentGet_cons, if_neg h]
  | cons p rest ih =>
      by_cases hp : p.1 = uid
      · rw [intentSet, if_pos hp, intentGet_cons, intentGet_cons]
        rw [hp, if_neg h, if_neg h]
      · rw [intentSet, if_neg hp, intentGet_cons, intentGet_cons]
        by_cases hp2 : p.1 = uid2
        · rw [if_pos hp2, if_pos hp2]
        · rw [if_neg hp2, if_neg hp2]
          exact ih

theorem movementIntents_get (mapRadius : Int) (unitsPre : List UnitState)
    (mo : List Order) (u : UnitState) (dest : Hex)
    (hu : unitsById unitsPre u.id = some u)
    (hall : ∀ d, Order.MOVE u.id d ∈ mo → d = dest)
    (hrad : (hex_distance ⟨0, 0⟩ dest : Int) ≤ mapRadius) (m0 : Intents)
    (hstart : Order.MOVE u.id dest ∈ mo ∨
      intentGet m0 u.id = some (dest, ⟨u.q, u.r⟩)) :
    intentGet (mo.foldl (intentStep mapRadius unitsPre) m0) u.id =
      some (dest, ⟨u.q, u.r⟩) := by
  induction mo generalizing m0 with
  | nil =>
      rcases hstart with h | h
      · simp at h
      · simpa using h
  | cons o rest ih =>
      rw [List.foldl_cons]
      match o with
      | .RESEARCH t =>
          refine ih (fun d hd => hall d (List.mem_cons_of_mem _ hd)) m0 ?_
          rcases hstart with h | h
          · rcases List.mem_cons.mp h with h | h
            · exact absurd h (by simp)
            · exact Or.inl h
          · exact Or.inr h
      | .BUILD f k =>
          refine ih (fun d hd => hall d (List.mem_cons_of_mem _ hd)) m0 ?_
          rcases hstart with h | h
          · rcases List.mem_cons.mp h with h | h
            · exact absurd h (by simp)
            · exact Or.inl h
          · exact Or.inr h
      | .MOVE uid2 d2 =>
          by_cases huid : uid2 = u.id
          · subst huid
            have hd2 : d2 = dest := hall d2 (List.mem_cons_self _ _)
            subst hd2
            refine ih (fun d hd => hall d (List.mem_cons_of_mem _ hd)) _ ?_
            refine Or.inr ?_
            simp only [intentStep, hu]
            rw [if_neg (by omega)]
            exact intentGet_intentSet_self _ _ _
          · refine ih (fun d hd => hall d (List.mem_cons_of_mem _ hd)) _ ?_
            rcases hstart with h | h
            · rcases List.mem_cons.mp h with h | h
              · exact absurd h
                  (by intro hc; injection hc with h1 h2; exact huid h1.symm)
              · exact Or.inl h
            · refine Or.inr ?_
              cases hw : unitsById unitsPre uid2 with
              | none => simpa [intentStep, hw] using h
              | some w =>
                  simp only [intentStep, hw]
                  by_cases hr : mapRadius < (hex_distance ⟨0, 0⟩ d2 : Int)
                  · simpa [hr] using h
                  · rw [if_neg hr]
                    rw [intentGet_intentSet_other _ _ _ _
                      (fun he => huid he)]
                    exact h

theorem execMoves_mem (us : List UnitState) (m : Intents) (b : Finset String)
    (u : UnitState) (target origin : Hex) (hu : u ∈ us)
    (hm : intentGet m u.id = some (target, origin)) (hnb : u.id ∉ b) :
    { u with q := target.q, r := target.r, mp := max 0 (u.mp - 1) } ∈
      execMoves us m b := by
  have : ({ u with q := target.q, r := target.r, mp := max 0 (u.mp - 1) } :
      UnitState) =
      (fun w =>
        match intentGet m w.id with
        | some (t, _) =>
            if w.id ∈ b then w
            else { w with q := t.q, r := t.r, mp := max 0 (w.mp - 1) }
        | none => w) u := by
    simp [hm, hnb]
  rw [execMoves, this]
  exact List.mem_map_of_mem _ hu

/-- C10: movement legality never consults MP nor adjacency.  For every
MOVE order naming a unit present in units_by_id (all orders for that unit
carrying the same destination), with destination within map_radius of the
world center (0,0), if the unit is not bounced by sub-phases A–C then its
position becomes the destination and its MP drops by exactly one, floored
at zero — with no hypothesis whatsoever on its current MP or on the
distance it travels. -/
theorem C10_move_ungated (hashFn : String → Nat) (mapRadius : Int)
    (allUnits unitsPre : List UnitState) (idx : PosIndex) (mo : List Order)
    (u : UnitState) (dest : Hex)
    (hu : unitsById unitsPre u.id = some u)
    (hmem : Order.MOVE u.id dest ∈ mo)
    (hall : ∀ d, Order.MOVE u.id d ∈ mo → d = dest)
    (hrad : (hex_distance ⟨0, 0⟩ dest : Int) ≤ mapRadius)
    (hlive : u ∈ allUnits)
    (hnb : u.id ∉ movementBounced hashFn allUnits unitsPre idx
        (movementIntents mapRadius unitsPre mo)) :
    { u with q := dest.q, r := dest.r, mp := max 0 (u.mp - 1) } ∈
      resolve_movement hashFn mapRadius allUnits unitsPre idx mo := by
  have hget : intentGet (movementIntents mapRadius unitsPre mo) u.id =
      some (dest, ⟨u.q, u.r⟩) :=
    movementIntents_get mapRadius unitsPre mo u dest hu hall hrad []
      (Or.inl hmem)
  exact execMoves_mem _ _ _ _ _ _ hlive hget hnb

/-- C10 witness: a Scout with MP 0 at (0,0) ordered to (5,0) — five hexes
away — moves there, MP stays 0. -/
theorem C10_move_ungated_witness :
    (⟨"m0", .SCOUT, 5, 0, 40, 0, some "p"⟩ : UnitState) ∈
      resolve_movement fxHash 20 [⟨"m0", .SCOUT, 0, 0, 40, 0, some "p"⟩]
        [⟨"m0", .SCOUT, 0, 0, 40, 0, some "p"⟩]
        (buildPosIndex [⟨"m0", .SCOUT, 0, 0, 40, 0, some "p"⟩])
        [Order.MOVE "m0" ⟨5, 0⟩] ∧
    hex_distance ⟨0, 0⟩ ⟨5, 0⟩ = 5 := by
  refine ⟨?_, by decide⟩
  have h := C10_move_ungated fxHash 20
    [⟨"m0", .SCOUT, 0, 0, 40, 0, some "p"⟩]
    [⟨"m0", .SCOUT, 0, 0, 40, 0, some "p"⟩]
    (buildPosIndex [⟨"m0", .SCOUT, 0, 0, 40, 0, some "p"⟩])
    [Order.MOVE "m0" ⟨5, 0⟩]
    ⟨"m0", .SCOUT, 0, 0, 40, 0, some "p"⟩ ⟨5, 0⟩
    (by decide) (by decide) (by intro d hd; simpa using hd) (by decide)
    (by decide) (by decide)
  exact h

theorem buildPhase_no_build (gen : Nat → String) (facs : List FacilityState)
    (st : BuildSt) (orders : List (String × Order))
    (h : ∀ po ∈ orders, ∀ fid k, po.2 ≠ Order.BUILD fid k) :
    buildPhase gen facs st orders = st := by
  induction orders generalizing st with
  | nil => rfl
  | cons po rest ih =>
      rcases po with ⟨p, o⟩
      cases o with
      | BUILD f k =>
          exact absurd rfl (h (p, .BUILD f k) (List.mem_cons_self _ _) f k)
      | MOVE a b =>
          show buildPhase gen facs st rest = st
          exact ih _ (fun po hpo => h po (List.mem_cons_of_mem _ hpo))
      | RESEARCH t =>
          show buildPhase gen facs st rest = st
          exact ih _ (fun po hpo => h po (List.mem_cons_of_mem _ hpo))

/-- C3 amended: advance is fully deterministic — independent of the uuid4
stream — on every order list containing no BUILD order; two runs with the
same per-process hash but arbitrary uuid draws return identical engine
stores and identical visible states. -/
theorem C3_amended (hashFn : String → Nat) (g1 g2 : Nat → String)
    (eng : EngineCtx) (state : GameState) (orders : List (String × Order))
    (h : ∀ po ∈ orders, ∀ fid k, po.2 ≠ Order.BUILD fid k) :
    process_tick hashFn g1 eng state orders =
      process_tick hashFn g2 eng state orders := by
  simp only [process_tick]
  rw [buildPhase_no_build g1 _ _ _ h, buildPhase_no_build g2 _ _ _ h]

/-- C3 amended, witness: the stale-index MOVE scenario runs identically
under the uuid streams that always draw aaaaaa and always draw bbbbbb. -/
theorem C3_amended_witness :
    process_tick fxHash fxGenA fxEng0 fxStFar fxOrdFar =
      process_tick fxHash fxGenB fxEng0 fxStFar fxOrdFar :=
  C3_amended fxHash fxGenA fxGenB fxEng0 fxStFar fxOrdFar
    (by
      intro po hpo fid k
      simp only [fxOrdFar, List.mem_singleton] at hpo
      subst hpo
      simp)

/-! ## Lemmas: non-negativity of the resource store -/

theorem nonneg_of_alookup {res : List (String × Resources)} {k : String}
    {r : Resources} (h : NonnegStore res) (hk : alookup res k = some r) :
    0 ≤ r.M ∧ 0 ≤ r.F ∧ 0 ≤ r.I := by
  unfold alookup at hk
  cases hfind : List.find? (fun p => p.1 = k) res with
  | none => rw [hfind] at hk; simp at hk
  | some p =>
      rw [hfind] at hk
      simp at hk
      subst hk
      exact h p (List.mem_of_find?_eq_some hfind)

theorem nonnegStore_aupdate {res : List (String × Resources)} {k : String}
    {f : Resources → Resources} (h : NonnegStore res)
    (hf : ∀ r, alookup res k = some r →
      0 ≤ (f r).M ∧ 0 ≤ (f r).F ∧ 0 ≤ (f r).I) :
    NonnegStore (aupdate res k f) := by
  induction res with
  | nil => intro pr hpr; simp [aupdate] at hpr
  | cons p rest ih =>
      by_cases hp : p.1 = k
      · intro pr hpr
        rw [aupdate, if_pos hp] at hpr
        rcases List.mem_cons.mp hpr with hpr | hpr
        · subst hpr
          exact hf p.2 (by rw [alookup_cons, if_pos hp])
        · exact h pr (List.mem_cons_of_mem _ hpr)
      · intro pr hpr
        rw [aupdate, if_neg hp] at hpr
        rcases List.mem_cons.mp hpr with hpr | hpr
        · subst hpr
          exact h pr (List.mem_cons_self _ _)
        · refine ih (fun q hq => h q (List.mem_cons_of_mem _ hq)) ?_ pr hpr
          intro r hr
          refine hf r ?_
          rw [alookup_cons, if_neg hp]
          exact hr

theorem upkeepUnit_nonneg (tick : Int) (res : List (String × Resources))
    (u : UnitState) (h : NonnegStore res) :
    NonnegStore (upkeepUnit tick res u).1 := by
  by_cases h10 : tick % 10 = 0
  · cases hupk : UNIT_UPKEEP u.type with
    | none => simpa [upkeepUnit, h10, hupk] using h
    | some cost =>
        cases ho : u.owner with
        | none => simpa [upkeepUnit, h10, hupk, ho] using h
        | some o =>
            cases hl : alookup res o with
            | none => simpa [upkeepUnit, h10, hupk, ho, hl] using h
            | some r =>
                by_cases hF : cost ≤ r.F
                · simp [upkeepUnit, h10, hupk, ho, hl, hF, Option.bind,
                    Option.map]
                  refine nonnegStore_aupdate h ?_
                  intro r2 hr2
                  rw [hl] at hr2
                  injection hr2 with hr2
                  subst hr2
                  have hr := nonneg_of_alookup h hl
                  refine ⟨hr.1, ?_, hr.2.2⟩
                  show (0 : Int) ≤ r.F - cost
                  omega
                · simpa [upkeepUnit, h10, hupk, ho, hl, hF, Option.bind,
                    Option.map] using h
  · simpa [upkeepUnit, h10] using h

theorem resetMpAndUpkeep_nonneg (tick : Int) (res : List (String × Resources))
    (us : List UnitState) (h : NonnegStore res) :
    NonnegStore (resetMpAndUpkeep tick res us).1 := by
  induction us generalizing res with
  | nil => exact h
  | cons u rest ih => exact ih _ (upkeepUnit_nonneg tick res u h)

theorem handleResearch_nonneg (player tech : String) (eng : EngineCtx)
    (events : List Event) (h : NonnegStore eng.resources) :
    NonnegStore (handleResearch player tech eng events).1.resources := by
  unfold handleResearch
  by_cases hin : tech ∈ (alookup eng.upgrades player).getD []
  · simp only [if_pos hin]
    exact h
  · simp only [if_neg hin]
    cases hl : alookup eng.resources player with
    | none => exact h
    | some r =>
        by_cases hI : RESEARCH_COST ≤ r.I
        · simp only [if_pos hI]
          refine nonnegStore_aupdate h ?_
          intro r2 hr2
          rw [hl] at hr2
          injection hr2 with hr2
          subst hr2
          have hr := nonneg_of_alookup h hl
          refine ⟨hr.1, hr.2.1, ?_⟩
          show (0 : Int) ≤ r.I - RESEARCH_COST
          have h200 : RESEARCH_COST = 200 := rfl
          rw [h200] at hI ⊢
          omega
        · simp only [if_neg hI]
          exact h

theorem researchPhase_nonneg (eng : EngineCtx) (events : List Event)
    (orders : List (String × Order)) (h : NonnegStore eng.resources) :
    NonnegStore (researchPhase eng events orders).1.resources := by
  induction orders generalizing eng events with
  | nil => exact h
  | cons po rest ih =>
      rcases po with ⟨p, o⟩
      cases o with
      | RESEARCH t =>
          show NonnegStore (researchPhase (handleResearch p t eng events).1
              (handleResearch p t eng events).2 rest).1.resources
          exact ih _ _ (handleResearch_nonneg p t eng events h)
      | MOVE a b =>
          show NonnegStore (researchPhase eng events rest).1.resources
          exact ih _ _ h
      | BUILD f k =>
          show NonnegStore (researchPhase eng events rest).1.resources
          exact ih _ _ h

theorem handleBuild_nonneg (gen : Nat → String) (player facId : String)
    (kind : UnitType) (facs : List FacilityState) (st : BuildSt)
    (h : NonnegStore st.eng.resources) :
    NonnegStore (handleBuild gen player facId kind facs st).eng.resources := by
  unfold handleBuild
  cases hfac : facilitiesById facs facId with
  | none => exact h
  | some fac =>
      by_cases howner : fac.owner ≠ some player
      · simp only [if_pos howner]; exact h
      · simp only [if_neg howner]
        by_cases hcap : 10 ≤ (posGet st.idx ⟨fac.q, fac.r⟩).length
        · simp only [if_pos hcap]; exact h
        · simp only [if_neg hcap]
          by_cases hres : (costOf kind).M ≤ ((alookup st.eng.resources player).getD ⟨0, 0, 0⟩).M ∧
              (costOf kind).F ≤ ((alookup st.eng.resources player).getD ⟨0, 0, 0⟩).F ∧
              (costOf kind).I ≤ ((alookup st.eng.resources player).getD ⟨0, 0, 0⟩).I
          · simp only [if_pos hres]
            refine nonnegStore_aupdate h ?_
            intro r2 hr2
            rw [hr2] at hres
            simp only [Option.getD_some] at hres
            have hr := nonneg_of_alookup h hr2
            obtain ⟨h1, h2, h3⟩ := hr
            obtain ⟨c1, c2, c3⟩ := hres
            refine ⟨?_, ?_, ?_⟩
            · show (0 : Int) ≤ r2.M - (costOf kind).M
              omega
            · show (0 : Int) ≤ r2.F - (costOf kind).F
              omega
            · show (0 : Int) ≤ r2.I - (costOf kind).I
              omega
          · simp only [if_neg hres]
            exact h

theorem buildPhase_nonneg (gen : Nat → String) (facs : List FacilityState)
    (st : BuildSt) (orders : List (String × Order))
    (h : NonnegStore st.eng.resources) :
    NonnegStore (buildPhase gen facs st orders).eng.resources := by
  induction orders generalizing st with
  | nil => exact h
  | cons po rest ih =>
      rcases po with ⟨p, o⟩
      cases o with
      | BUILD f k =>
          show NonnegStore
            (buildPhase gen facs (handleBuild gen p f k facs st) rest).eng.resources
          exact ih _ (handleBuild_nonneg gen p f k facs st h)
      | MOVE a b =>
          show NonnegStore (buildPhase gen facs st rest).eng.resources
          exact ih _ h
      | RESEARCH t =>
          show NonnegStore (buildPhase gen facs st rest).eng.resources
          exact ih _ h

/-- C6: resource non-negativity.  If every pool of every player is
non-negative before a tick, then after process_tick every pool is still
non-negative: the upkeep, research and build debits are each guarded by a
sufficiency check on the entry they debit and never applied partially. -/
theorem C6_resources_nonneg (hashFn : String → Nat) (gen : Nat → String)
    (eng : EngineCtx) (state : GameState) (orders : List (String × Order))
    (h : NonnegStore eng.resources) :
    NonnegStore (process_tick hashFn gen eng state orders).1.resources := by
  simp only [process_tick]
  apply researchPhase_nonneg
  apply buildPhase_nonneg
  apply researchPhase_nonneg
  exact resetMpAndUpkeep_nonneg _ _ _ h

/-- C6 witness: a tick that actually debits (red pays 40 M for a
LightInfantry) keeps every pool non-negative. -/
theorem C6_resources_nonneg_witness :
    NonnegStore
      (process_tick fxHash fxGen fxEngM40 fxStChiefs fxOrdBuildLI).1.resources :=
  C6_resources_nonneg fxHash fxGen fxEngM40 fxStChiefs fxOrdBuildLI (by decide)

/-! ## Lemmas about the position index and target groups -/

theorem posGet_nil (h : Hex) : posGet [] h = [] := rfl

theorem posGet_cons (p : Hex × List String) (rest : PosIndex) (h : Hex) :
    posGet (p :: rest) h = if p.1 = h then p.2 else posGet rest h := by
  by_cases hp : p.1 = h <;> simp [posGet, List.find?, hp]

theorem posGet_posInsert (idx : PosIndex) (h h2 : Hex) (uid : String) :
    posGet (posInsert idx h uid) h2 =
      if h2 = h then posGet idx h ++ [uid] else posGet idx h2 := by
  induction idx with
  | nil =>
      by_cases he : h2 = h
      · subst he
        rw [posInsert, posGet_cons, if_pos rfl, if_pos rfl, posGet_nil]
        rfl
      · rw [posInsert, posGet_cons, if_neg (fun hc => he hc.symm), if_neg he]
  | cons p rest ih =>
      by_cases hp : p.1 = h
      · rw [posInsert, if_pos hp]
        by_cases he : h2 = h
        · subst he
          rw [posGet_cons, if_pos hp, if_pos rfl, posGet_cons, if_pos hp]
        · have hne : ¬p.1 = h2 := fun hc => he (hc.symm.trans hp)
          rw [posGet_cons, if_neg hne, if_neg he, posGet_cons, if_neg hne]
      · rw [posInsert, if_neg hp]
        by_cases he : h2 = h
        · subst he
          rw [posGet_cons, if_neg hp, ih, if_pos rfl, if_pos rfl,
            posGet_cons, if_neg hp]
        · rw [posGet_cons, ih, if_neg he, if_neg he, posGet_cons]

theorem posGet_fold {α : Type} (key : α → Hex) (val : α → String)
    (l : List α) (idx0 : PosIndex) (h : Hex) :
    posGet (l.foldl (fun g x => posInsert g (key x) (val x)) idx0) h =
      posGet idx0 h ++ (l.filter (fun x => key x = h)).map val := by
  induction l generalizing idx0 with
  | nil => simp
  | cons x xs ih =>
      rw [List.foldl_cons, ih, posGet_posInsert]
      by_cases he : key x = h
      · rw [if_pos he.symm, List.filter_cons_of_pos (by simp [he]),
          List.map_cons, he]
        simp
      · rw [if_neg (fun hc => he hc.symm),
          List.filter_cons_of_neg (by simp [he])]

theorem posGet_buildPosIndex (us : List UnitState) (h : Hex) :
    posGet (buildPosIndex us) h =
      (us.filter (fun u => (⟨u.q, u.r⟩ : Hex) = h)).map (fun u => u.id) := by
  simpa using posGet_fold (fun u : UnitState => (⟨u.q, u.r⟩ : Hex))
    (fun u => u.id) us [] h

theorem posGet_groupByTarget (m : Intents) (t : Hex) :
    posGet (groupByTarget m) t =
      (m.filter (fun p => p.2.1 = t)).map Prod.fst := by
  simpa using posGet_fold (fun p : String × Hex × Hex => p.2.1) Prod.fst m [] t

theorem posInsert_keys (idx : PosIndex) (h : Hex) (uid : String) :
    (posInsert idx h uid).map Prod.fst =
      if h ∈ idx.map Prod.fst then idx.map Prod.fst
      else idx.map Prod.fst ++ [h] := by
  induction idx with
  | nil => simp [posInsert]
  | cons p rest ih =>
      by_cases hp : p.1 = h
      · rw [posInsert, if_pos hp]
        simp [hp]

      · rw [posInsert, if_neg hp]
        simp only [List.map_cons, ih]
        by_cases hm : h ∈ rest.map Prod.fst
        · rw [if_pos hm, if_pos (by simp [hm])]
        · have hne : ¬h ∈ p.1 :: rest.map Prod.fst := by
            simp only [List.mem_cons, not_or]
            exact ⟨fun hc => hp hc.symm, hm⟩
          rw [if_neg hm, if_neg hne]
          simp

theorem posFold_keys_nodup {α : Type} (key : α → Hex) (val : α → String)
    (l : List α) (idx0 : PosIndex)
    (h0 : (idx0.map Prod.fst).Nodup) :
    (((l.foldl (fun g x => posInsert g (key x) (val x)) idx0)).map
      Prod.fst).Nodup := by
  induction l generalizing idx0 with
  | nil => exact h0
  | cons x xs ih =>
      rw [List.foldl_cons]
      apply ih
      rw [posInsert_keys]
      by_cases hm : key x ∈ idx0.map Prod.fst
      · rwa [if_pos hm]
      · rw [if_neg hm]
        simp [List.nodup_append, h0, hm]

theorem groupByTarget_keys_nodup (m : Intents) :
    ((groupByTarget m).map Prod.fst).Nodup :=
  posFold_keys_nodup (fun p : String × Hex × Hex => p.2.1) Prod.fst m []
    (by simp)

theorem buildPosIndex_keys_nodup (us : List UnitState) :
    ((buildPosIndex us).map Prod.fst).Nodup :=
  posFold_keys_nodup (fun u : UnitState => (⟨u.q, u.r⟩ : Hex))
    (fun u => u.id) us [] (by simp)

theorem bucket_eq_posGet (idx : PosIndex) (p : Hex × List String)
    (hnd : (idx.map Prod.fst).Nodup) (hp : p ∈ idx) :
    posGet idx p.1 = p.2 := by
  induction idx with
  | nil => simp at hp
  | cons q rest ih =>
      simp only [List.map_cons, List.nodup_cons] at hnd
      rcases List.mem_cons.mp hp with h | h
      · subst h
        rw [posGet_cons, if_pos rfl]
      · rw [posGet_cons]
        by_cases hq : q.1 = p.1
        · exfalso
          exact hnd.1 (hq ▸ List.mem_map_of_mem Prod.fst h)
        · rw [if_neg hq]
          exact ih hnd.2 h

theorem posGet_mem (idx : PosIndex) (t : Hex) (hne : posGet idx t ≠ []) :
    (t, posGet idx t) ∈ idx := by
  induction idx with
  | nil => exact absurd rfl hne
  | cons p rest ih =>
      rw [posGet_cons] at hne ⊢
      by_cases hp : p.1 = t
      · rw [if_pos hp]
        subst hp
        exact List.mem_cons_self _ _
      · rw [if_neg hp] at hne ⊢
        exact List.mem_cons_of_mem _ (ih hne)

theorem entry_unique {α : Type} {m : List (String × α)}
    (hnd : (m.map Prod.fst).Nodup) {p q : String × α}
    (hp : p ∈ m) (hq : q ∈ m) (he : p.1 = q.1) : p = q := by
  induction m with
  | nil => simp at hp
  | cons x rest ih =>
      simp only [List.map_cons, List.nodup_cons] at hnd
      rcases List.mem_cons.mp hp with h1 | h1 <;>
        rcases List.mem_cons.mp hq with h2 | h2
      · rw [h1, h2]
      · exfalso
        subst h1
        exact hnd.1 (he ▸ List.mem_map_of_mem Prod.fst h2)
      · exfalso
        subst h2
        exact hnd.1 (he ▸ List.mem_map_of_mem Prod.fst h1)
      · exact ih hnd.2 h1 h2

theorem mem_foldl_union {α : Type} (g : α → Finset String) (l : List α)
    (b0 : Finset String) (x : String) :
    (x ∈ l.foldl (fun b p => b ∪ g p) b0) ↔ x ∈ b0 ∨ ∃ p ∈ l, x ∈ g p := by
  induction l generalizing b0 with
  | nil => simp
  | cons p rest ih =>
      rw [List.foldl_cons, ih]
      simp only [Finset.mem_union, List.mem_cons]
      constructor
      · rintro ((h | h) | ⟨q, hq, hx⟩)
        · exact Or.inl h
        · exact Or.inr ⟨p, Or.inl rfl, h⟩
        · exact Or.inr ⟨q, Or.inr hq, hx⟩
      · rintro (h | ⟨q, (hq | hq), hx⟩)
        · exact Or.inl (Or.inl h)
        · exact Or.inl (Or.inr (hq ▸ hx))
        · exact Or.inr ⟨q, hq, hx⟩

theorem pickWinner_foldl_aux (key : String → Int) (u : String)
    (xs : List String) (w : String)
    (hw : w = u ∨ key w < key u) (hu : u = w ∨ u ∈ xs)
    (hmax : ∀ v ∈ xs, v ≠ u → key v < key u) :
    xs.foldl (fun a y => if key a < key y then y else a) w = u := by
  induction xs generalizing w with
  | nil =>
      rcases hu with h | h
      · exact h.symm
      · simp at h
  | cons y ys ih =>
      rw [List.foldl_cons]
      by_cases hyu : y = u
      · subst hyu
        by_cases hlt : key w < key y
        · rw [if_pos hlt]
          exact ih y (Or.inl rfl) (Or.inl rfl)
            (fun v hv hne => hmax v (List.mem_cons_of_mem _ hv) hne)
        · rw [if_neg hlt]
          rcases hw with h | h
          · exact ih w (Or.inl h) (Or.inl h.symm)
              (fun v hv hne => hmax v (List.mem_cons_of_mem _ hv) hne)
          · exact absurd h hlt
      · have hy : key y < key u := hmax y (List.mem_cons_self _ _) hyu
        have hu2 : u = (if key w < key y then y else w) ∨ u ∈ ys := by
          rcases hu with h | h
          · subst h
            rcases hw with h | h
            · left
              by_cases hlt : key u < key y
              · exact absurd hy (by omega)
              · rw [if_neg hlt]
            · exact absurd h (by omega)
          · rcases List.mem_cons.mp h with h | h
            · exact absurd h.symm hyu
            · exact Or.inr h
        have hw2 : (if key w < key y then y else w) = u ∨
            key (if key w < key y then y else w) < key u := by
          by_cases hlt : key w < key y
          · rw [if_pos hlt]
            exact Or.inr hy
          · rw [if_neg hlt]
            exact hw
        exact ih _ hw2 hu2
          (fun v hv hne => hmax v (List.mem_cons_of_mem _ hv) hne)

theorem pickWinner_eq_max (key : String → Int) (l : List String) (u : String)
    (hu : u ∈ l) (hmax : ∀ v ∈ l, v ≠ u → key v < key u) :
    pickWinner key l = some u := by
  cases l with
  | nil => simp at hu
  | cons x xs =>
      show some _ = some u
      congr 1
      apply pickWinner_foldl_aux key u xs x
      · by_cases hx : x = u
        · exact Or.inl hx
        · exact Or.inr (hmax x (List.mem_cons_self _ _) hx)
      · rcases List.mem_cons.mp hu with h | h
        · exact Or.inl h
        · exact Or.inr h
      · exact fun v hv hne => hmax v (List.mem_cons_of_mem _ hv) hne

theorem intentSet_keys (m : Intents) (uid : String) (v : Hex × Hex) :
    (intentSet m uid v).map Prod.fst =
      if uid ∈ m.map Prod.fst then m.map Prod.fst
      else m.map Prod.fst ++ [uid] := by
  induction m with
  | nil => simp [intentSet]
  | cons p rest ih =>
      by_cases hp : p.1 = uid
      · rw [intentSet, if_pos hp]
        simp [hp]
      · rw [intentSet, if_neg hp]
        simp only [List.map_cons, ih]
        by_cases hm : uid ∈ rest.map Prod.fst
        · rw [if_pos hm, if_pos (by simp [hm])]
        · have hne : ¬uid ∈ p.1 :: rest.map Prod.fst := by
            simp only [List.mem_cons, not_or]
            exact ⟨fun hc => hp hc.symm, hm⟩
          rw [if_neg hm, if_neg hne]
          simp

theorem movementIntents_keys_nodup_aux (mapRadius : Int)
    (unitsPre : List UnitState) (mo : List Order) (m0 : Intents)
    (h0 : (m0.map Prod.fst).Nodup) :
    ((mo.foldl (intentStep mapRadius unitsPre) m0).map Prod.fst).Nodup := by
  induction mo generalizing m0 with
  | nil => exact h0
  | cons o rest ih =>
      rw [List.foldl_cons]
      apply ih
      cases o with
      | MOVE uid dest =>
          cases hw : unitsById unitsPre uid with
          | none => simpa [intentStep, hw] using h0
          | some w =>
              by_cases hr : mapRadius < (hex_distance ⟨0, 0⟩ dest : Int)
              · simpa [intentStep, hw, hr] using h0
              · simp only [intentStep, hw, if_neg hr]
                rw [intentSet_keys]
                by_cases hm : uid ∈ m0.map Prod.fst
                · rwa [if_pos hm]
                · rw [if_neg hm]
                  simp [List.nodup_append, h0, hm]
      | BUILD f k => simpa [intentStep] using h0
      | RESEARCH t => simpa [intentStep] using h0

theorem movementIntents_keys_nodup (mapRadius : Int)
    (unitsPre : List UnitState) (mo : List Order) :
    ((movementIntents mapRadius unitsPre mo).map Prod.fst).Nodup :=
  movementIntents_keys_nodup_aux mapRadius unitsPre mo [] (by simp)

/-- C4 amended: sub-phase A elects, per contested target, the contender
maximizing the combined key mp × 1000 + |hash(id)| (not the lexicographic
pair): whenever one contender u has strictly the greatest combined key
among its target group, the stable descending sort puts u first, u never
joins the bounced set in sub-phase A, and every other contender for that
target does. -/
theorem C4_amended (hashFn : String → Nat) (mapRadius : Int)
    (unitsPre : List UnitState) (mo : List Order) (t : Hex) (u : String)
    (hu : u ∈ posGet (groupByTarget (movementIntents mapRadius unitsPre mo)) t)
    (hmax : ∀ v ∈
        posGet (groupByTarget (movementIntents mapRadius unitsPre mo)) t,
      v ≠ u → sortKey hashFn unitsPre v < sortKey hashFn unitsPre u) :
    pickWinner (sortKey hashFn unitsPre)
        (posGet (groupByTarget (movementIntents mapRadius unitsPre mo)) t) =
      some u ∧
    u ∉ phaseA (sortKey hashFn unitsPre)
        (movementIntents mapRadius unitsPre mo) ∧
    (∀ v ∈ posGet (groupByTarget (movementIntents mapRadius unitsPre mo)) t,
      v ≠ u →
        v ∈ phaseA (sortKey hashFn unitsPre)
          (movementIntents mapRadius unitsPre mo)) := by
  have hknd := movementIntents_keys_nodup mapRadius unitsPre mo
  have hgnd := groupByTarget_keys_nodup (movementIntents mapRadius unitsPre mo)
  have hwin := pickWinner_eq_max (sortKey hashFn unitsPre) _ u hu hmax
  have hentry : ∀ x : String, ∀ h2 : Hex,
      x ∈ posGet (groupByTarget (movementIntents mapRadius unitsPre mo)) h2 →
      ∃ e ∈ movementIntents mapRadius unitsPre mo, e.1 = x ∧ e.2.1 = h2 := by
    intro x h2 hx
    rw [posGet_groupByTarget] at hx
    rcases List.mem_map.mp hx with ⟨e, he, hex⟩
    rcases List.mem_filter.mp he with ⟨hem, het⟩
    exact ⟨e, hem, hex, by simpa using het⟩
  refine ⟨hwin, ?_, ?_⟩
  · rw [phaseA, mem_foldl_union]
    rintro (h | ⟨p, hpmem, hup⟩)
    · simp at h
    · have hbkt := bucket_eq_posGet _ p hgnd hpmem
      unfold phaseALosers at hup
      by_cases hlen : 1 < p.2.length
      · rw [if_pos hlen] at hup
        cases hpw : pickWinner (sortKey hashFn unitsPre) p.2 with
        | none => rw [hpw] at hup; simp at hup
        | some w =>
            rw [hpw] at hup
            rw [List.mem_toFinset, List.mem_filter] at hup
            have hup2 : u ∈ posGet
                (groupByTarget (movementIntents mapRadius unitsPre mo)) p.1 := by
              rw [hbkt]; exact hup.1
            rcases hentry u p.1 hup2 with ⟨e1, he1, he1u, he1t⟩
            rcases hentry u t hu with ⟨e2, he2, he2u, he2t⟩
            have : e1 = e2 := entry_unique hknd he1 he2 (he1u.trans he2u.symm)
            have hpt : p.1 = t := by rw [← he1t, this, he2t]
            rw [← hbkt, hpt, hwin] at hpw
            injection hpw with hpw
            subst hpw
            simpa using hup.2
      · rw [if_neg hlen] at hup
        simp at hup
  · intro v hv hne
    have hlen : 1 <
        (posGet (groupByTarget (movementIntents mapRadius unitsPre mo)) t).length := by
      rcases hx : posGet (groupByTarget (movementIntents mapRadius unitsPre mo)) t
          with _ | ⟨x, _ | ⟨y, rest⟩⟩
      · rw [hx] at hu; simp at hu
      · rw [hx] at hu hv
        simp at hu hv
        exact absurd (hv.trans hu.symm) hne
      · simp
    rw [phaseA, mem_foldl_union]
    refine Or.inr ⟨(t, posGet
      (groupByTarget (movementIntents mapRadius unitsPre mo)) t), ?_, ?_⟩
    · exact posGet_mem _ _ (List.ne_nil_of_mem hu)
    · unfold phaseALosers
      rw [if_pos hlen, hwin, List.mem_toFinset, List.mem_filter]
      exact ⟨hv, by simpa using hne⟩

unseal Rat.add Rat.mul Rat.sub Rat.inv in
/-- C4 amended, witness: in the w-vs-zz contention (keys 5000 and 3005 for
target (1,0)), w is elected winner, stays un-bounced, and zz bounces. -/
theorem C4_amended_witness :
    pickWinner (sortKey fxHashW
        (resetMpAndUpkeep 1 fxEng0.resources fxStContend.units).2)
      (posGet (groupByTarget (movementIntents 20
          (resetMpAndUpkeep 1 fxEng0.resources fxStContend.units).2
          [Order.MOVE "w" ⟨1, 0⟩, Order.MOVE "zz" ⟨1, 0⟩])) ⟨1, 0⟩) = some "w" ∧
    "w" ∉ phaseA (sortKey fxHashW
        (resetMpAndUpkeep 1 fxEng0.resources fxStContend.units).2)
      (movementIntents 20
        (resetMpAndUpkeep 1 fxEng0.resources fxStContend.units).2
        [Order.MOVE "w" ⟨1, 0⟩, Order.MOVE "zz" ⟨1, 0⟩]) ∧
    (∀ v ∈ posGet (groupByTarget (movementIntents 20
        (resetMpAndUpkeep 1 fxEng0.resources fxStContend.units).2
        [Order.MOVE "w" ⟨1, 0⟩, Order.MOVE "zz" ⟨1, 0⟩])) ⟨1, 0⟩,
      v ≠ "w" →
        v ∈ phaseA (sortKey fxHashW
            (resetMpAndUpkeep 1 fxEng0.resources fxStContend.units).2)
          (movementIntents 20
            (resetMpAndUpkeep 1 fxEng0.resources fxStContend.units).2
            [Order.MOVE "w" ⟨1, 0⟩, Order.MOVE "zz" ⟨1, 0⟩])) :=
  C4_amended fxHashW 20
    (resetMpAndUpkeep 1 fxEng0.resources fxStContend.units).2
    [Order.MOVE "w" ⟨1, 0⟩, Order.MOVE "zz" ⟨1, 0⟩] ⟨1, 0⟩ "w"
    (by decide) (by decide)

/-! ## Lemmas: what each phase leaves untouched -/

theorem upkeepUnit_snd (tick : Int) (res : List (String × Resources))
    (u : UnitState) : ∃ m, (upkeepUnit tick res u).2 = { u with mp := m } := by
  unfold upkeepUnit
  rcases (if tick % 10 = 0 then UNIT_UPKEEP u.type else none) with _ | cost
  · exact ⟨_, rfl⟩
  · rcases u.owner.bind (fun o => (alookup res o).map (fun r => (o, r))) with
      _ | ⟨o, r⟩
    · exact ⟨_, rfl⟩
    · by_cases hF : cost ≤ r.F
      · exact ⟨unitMaxMp u.type, by simp [hF]⟩
      · exact ⟨max 0 ((3 * unitMaxMp u.type) / 4), by simp [hF]⟩

theorem resetMpAndUpkeep_map {α : Type} (tick : Int)
    (res : List (String × Resources)) (us : List UnitState)
    (f : UnitState → α) (hf : ∀ u m, f { u with mp := m } = f u) :
    (resetMpAndUpkeep tick res us).2.map f = us.map f := by
  induction us generalizing res with
  | nil => rfl
  | cons u rest ih =>
      show ((upkeepUnit tick res u).2 :: (resetMpAndUpkeep tick
        (upkeepUnit tick res u).1 rest).2).map f = _
      rcases upkeepUnit_snd tick res u with ⟨m, hm⟩
      rw [List.map_cons, hm, hf, ih, List.map_cons]

theorem buildPosIndex_congr (us vs : List UnitState)
    (h : us.map (fun u => ((⟨u.q, u.r⟩ : Hex), u.id)) =
      vs.map (fun u => ((⟨u.q, u.r⟩ : Hex), u.id))) :
    buildPosIndex us = buildPosIndex vs := by
  unfold buildPosIndex
  suffices hgen : ∀ (us vs : List UnitState) (idx0 : PosIndex),
      us.map (fun u => ((⟨u.q, u.r⟩ : Hex), u.id)) =
        vs.map (fun u => ((⟨u.q, u.r⟩ : Hex), u.id)) →
      us.foldl (fun idx u => posInsert idx ⟨u.q, u.r⟩ u.id) idx0 =
        vs.foldl (fun idx u => posInsert idx ⟨u.q, u.r⟩ u.id) idx0 from
    hgen us vs [] h
  intro us
  induction us with
  | nil =>
      intro vs idx0 hh
      cases vs with
      | nil => rfl
      | cons v vr => simp at hh
  | cons u ur ih =>
      intro vs idx0 hh
      cases vs with
      | nil => simp at hh
      | cons v vr =>
          simp only [List.map_cons, List.cons.injEq] at hh
          rw [List.foldl_cons, List.foldl_cons]
          have h1 : (⟨u.q, u.r⟩ : Hex) = ⟨v.q, v.r⟩ := congrArg Prod.fst hh.1
          have h2 : u.id = v.id := congrArg Prod.snd hh.1
          rw [h1, h2]
          exact ih vr _ hh.2

theorem execMoves_eq_map (us : List UnitState) (m : Intents)
    (b : Finset String) :
    execMoves us m b = us.map (fun u =>
      match intentGet m u.id with
      | some (target, _) =>
          if u.id ∈ b then u
          else { u with q := target.q, r := target.r, mp := max 0 (u.mp - 1) }
      | none => u) := rfl

theorem execMoves_map {α : Type} (us : List UnitState) (m : Intents)
    (b : Finset String) (f : UnitState → α)
    (hf : ∀ u q r mp, f { u with q := q, r := r, mp := mp } = f u) :
    (execMoves us m b).map f = us.map f := by
  rw [execMoves_eq_map, List.map_map]
  apply List.map_congr_left
  intro u hu
  cases hi : intentGet m u.id with
  | none => simp [hi]
  | some p =>
      rcases p with ⟨t, o⟩
      by_cases hb : u.id ∈ b
      · simp [hi, hb]
      · simp [hi, hb, hf]

theorem find?_id_of_mem (us : List UnitState) (w : UnitState)
    (hnd : (us.map (fun u => u.id)).Nodup) (hw : w ∈ us) :
    us.find? (fun u => u.id = w.id) = some w := by
  induction us with
  | nil => simp at hw
  | cons u rest ih =>
      simp only [List.map_cons, List.nodup_cons] at hnd
      rcases List.mem_cons.mp hw with h | h
      · subst h
        exact List.find?_cons_of_pos _ (by simp)
      · by_cases he : u.id = w.id
        · exfalso
          exact hnd.1 (he ▸ List.mem_map_of_mem (fun x => x.id) h)
        · rw [List.find?_cons_of_neg _ (by simp [he])]
          exact ih hnd.2 h

theorem unitsById_of_mem (us : List UnitState) (w : UnitState)
    (hnd : (us.map (fun u => u.id)).Nodup) (hw : w ∈ us) :
    unitsById us w.id = some w := by
  unfold unitsById
  apply find?_id_of_mem
  · have he : us.reverse.map (fun u => u.id) =
        (us.map (fun u => u.id)).reverse := by
      simp
    rw [he]
    exact List.nodup_reverse.mpr hnd
  · exact List.mem_reverse.mpr hw

theorem find?_map_id_pres (g : UnitState → UnitState)
    (hid : ∀ u, (g u).id = u.id) (l : List UnitState) (x : String) :
    (l.map g).find? (fun u => u.id = x) =
      (l.find? (fun u => u.id = x)).map g := by
  induction l with
  | nil => rfl
  | cons u rest ih =>
      by_cases he : u.id = x
      · rw [List.map_cons, List.find?_cons_of_pos _ (by simp [hid, he]),
          List.find?_cons_of_pos _ (by simp [he])]
        rfl
      · rw [List.map_cons, List.find?_cons_of_neg _ (by simp [hid, he]),
          List.find?_cons_of_neg _ (by simp [he])]
        exact ih

theorem unitsById_map (g : UnitState → UnitState)
    (hid : ∀ u, (g u).id = u.id) (l : List UnitState) (x : String) :
    unitsById (l.map g) x = (unitsById l x).map g := by
  unfold unitsById
  rw [← List.map_reverse, find?_map_id_pres g hid]

theorem hex_sub_add (h d : Hex) : (h.add d).sub h = d := by
  cases h
  cases d
  simp only [Hex.add, Hex.sub, Hex.mk.injEq]
  constructor <;> ring

theorem hex_distance_neighbor (h n : Hex) (hn : n ∈ hex_neighbors h) :
    hex_distance n h = 1 := by
  simp only [hex_neighbors, HEX_DIRECTIONS, List.map_cons, List.map_nil,
    List.mem_cons, List.not_mem_nil, or_false] at hn
  rcases hn with rfl | rfl | rfl | rfl | rfl | rfl <;>
    rw [hex_distance, hex_sub_add] <;> decide

theorem incoming_inner_zero (eng : EngineCtx) (allUnits : List UnitState)
    (ownerDef : Option String) (l : List String) (s : ℚ)
    (h : ∀ occId ∈ l, ∀ a, unitsById allUnits occId = some a →
      a.owner = ownerDef) :
    l.foldl
      (fun s occId =>
        match unitsById allUnits occId with
        | some a =>
            if a.owner ≠ ownerDef then
              s + getBaseAtk a.type (upgradesOf eng a.owner) *
                (a.hp / unitMaxHp a.type)
            else s
        | none => s)
      s = s := by
  induction l generalizing s with
  | nil => rfl
  | cons occ rest ih =>
      rw [List.foldl_cons]
      have hstep :
          (match unitsById allUnits occ with
            | some a =>
                if a.owner ≠ ownerDef then
                  s + getBaseAtk a.type (upgradesOf eng a.owner) *
                    (a.hp / unitMaxHp a.type)
                else s
            | none => s) = s := by
        cases ha : unitsById allUnits occ with
        | none => rfl
        | some a =>
            have := h occ (List.mem_cons_self _ _) a ha
            simp [this]
      rw [hstep]
      exact ih _ (fun occId hm => h occId (List.mem_cons_of_mem _ hm))

theorem incomingRaw_zero (eng : EngineCtx) (allUnits : List UnitState)
    (idx : PosIndex) (ownerDef : Option String) (loc : Hex)
    (h : ∀ n ∈ hex_neighbors loc, ∀ occId ∈ posGet idx n,
      ∀ a, unitsById allUnits occId = some a → a.owner = ownerDef) :
    incomingRaw eng allUnits idx ownerDef loc = 0 := by
  unfold incomingRaw
  suffices hgen : ∀ (ns : List Hex) (s : ℚ),
      (∀ n ∈ ns, ∀ occId ∈ posGet idx n, ∀ a,
        unitsById allUnits occId = some a → a.owner = ownerDef) →
      ns.foldl
        (fun acc n =>
          (posGet idx n).foldl
            (fun s occId =>
              match unitsById allUnits occId with
              | some a =>
                  if a.owner ≠ ownerDef then
                    s + getBaseAtk a.type (upgradesOf eng a.owner) *
                      (a.hp / unitMaxHp a.type)
                  else s
              | none => s)
            acc)
        s = s from hgen (hex_neighbors loc) 0 h
  intro ns
  induction ns with
  | nil => intro s _; rfl
  | cons n rest ih =>
      intro s hh
      rw [List.foldl_cons,
        incoming_inner_zero eng allUnits ownerDef _ s
          (hh n (List.mem_cons_self _ _))]
      exact ih s (fun n2 hn2 => hh n2 (List.mem_cons_of_mem _ hn2))

theorem combat_fold_skip (eng : EngineCtx) (allUnits : List UnitState)
    (idxFull : PosIndex) (idxIter : List (Hex × List String))
    (acc : List (String × ℚ) × List Event)
    (h : ∀ p ∈ idxIter, ∀ d0 r0, p.2 = d0 :: r0 →
      incomingRaw eng allUnits idxFull (idOwner allUnits d0) p.1 ≤ 0) :
    idxIter.foldl (combatHexStep eng allUnits idxFull) acc = acc := by
  induction idxIter generalizing acc with
  | nil => rfl
  | cons p rest ih =>
      rw [List.foldl_cons]
      have hstep : combatHexStep eng allUnits idxFull acc p = acc := by
        unfold combatHexStep
        cases hp : p.2 with
        | nil => rfl
        | cons d0 r0 =>
            have := h p (List.mem_cons_self _ _) d0 r0 hp
            simp [this]
      rw [hstep]
      exact ih _ (fun q hq => h q (List.mem_cons_of_mem _ hq))

theorem applyDamage_nil (us : List UnitState) :
    applyDamage us [] = us.filter (fun u => 1/2 < u.hp) := by
  unfold applyDamage
  congr 1
  rw [show alookup ([] : List (String × ℚ)) = fun _ => none from rfl]
  simp

theorem checkVictory_units (s : GameState) : (checkVictory s).units = s.units := by
  unfold checkVictory
  split
  · rfl
  · split <;> rfl

theorem checkVictory_facilities (s : GameState) :
    (checkVictory s).facilities = s.facilities := by
  unfold checkVictory
  split
  · rfl
  · split <;> rfl

theorem execMoves_deref (us : List UnitState) (m : Intents) (b : Finset String)
    (w : UnitState) (hnd : (us.map (fun u => u.id)).Nodup) (hw : w ∈ us) :
    ∃ w2, unitsById (execMoves us m b) w.id = some w2 ∧
      w2.id = w.id ∧ w2.owner = w.owner ∧ w2.hp = w.hp := by
  have hid : ∀ u : UnitState,
      ((fun (u : UnitState) => match intentGet m u.id with
        | some (target, _) => if u.id ∈ b then u
            else { u with q := target.q, r := target.r, mp := max 0 (u.mp - 1) }
        | none => u) u).id = u.id := by
    intro u
    cases h : intentGet m u.id with
    | none => simp [h]
    | some p =>
        rcases p with ⟨t, o⟩
        by_cases hb : u.id ∈ b <;> simp [h, hb]
  rw [execMoves_eq_map, unitsById_map _ hid, unitsById_of_mem us w hnd hw]
  refine ⟨_, rfl, hid w, ?_, ?_⟩
  · cases h : intentGet m w.id with
    | none => simp [h]
    | some p =>
        rcases p with ⟨t, o⟩
        by_cases hb : w.id ∈ b <;> simp [h, hb]
  · cases h : intentGet m w.id with
    | none => simp [h]
    | some p =>
        rcases p with ⟨t, o⟩
        by_cases hb : w.id ∈ b <;> simp [h, hb]

/-- C1 amended: combat reads the position index built before Phase 3, so a
unit that moves this tick attacks from and defends at its origin hex.
Consequently, when no two hostile units are adjacent at their
pre-movement positions, a tick of MOVE/RESEARCH orders (no BUILD) deals no
damage at all — whatever moves are executed — and every unit survives with
its id and HP intact. -/
theorem C1_amended (hashFn : String → Nat) (gen : Nat → String)
    (eng : EngineCtx) (state : GameState) (orders : List (String × Order))
    (hnb : ∀ po ∈ orders, ∀ fid k, po.2 ≠ Order.BUILD fid k)
    (hnd : (state.units.map (fun u => u.id)).Nodup)
    (hadj : ∀ u ∈ state.units, ∀ v ∈ state.units, u.owner ≠ v.owner →
      hex_distance ⟨u.q, u.r⟩ ⟨v.q, v.r⟩ ≠ 1)
    (hhp : ∀ u ∈ state.units, 1/2 < u.hp) :
    (process_tick hashFn gen eng state orders).2.units.map
        (fun u => (u.id, u.hp)) =
      state.units.map (fun u => (u.id, u.hp)) := by
  simp only [process_tick]
  rw [buildPhase_no_build gen _ _ _ hnb]
  rw [checkVictory_units]
  simp only [resolve_combat]
  set UP := (resetMpAndUpkeep (state.tick + 1) eng.resources state.units).2
    with hUPdef
  -- facts about the upkeep phase
  have hids : UP.map (fun u => u.id) = state.units.map (fun u => u.id) :=
    resetMpAndUpkeep_map _ _ _ _ (fun u m => rfl)
  have hndUP : (UP.map (fun u => u.id)).Nodup := by rw [hids]; exact hnd
  have htuple : UP.map (fun u => (u.q, u.r, u.owner, u.hp)) =
      state.units.map (fun u => (u.q, u.r, u.owner, u.hp)) :=
    resetMpAndUpkeep_map _ _ _ _ (fun u m => rfl)
  have htrans : ∀ w ∈ UP, ∃ su ∈ state.units,
      su.q = w.q ∧ su.r = w.r ∧ su.owner = w.owner ∧ su.hp = w.hp := by
    intro w hw
    have hm : (w.q, w.r, w.owner, w.hp) ∈
        state.units.map (fun u => (u.q, u.r, u.owner, u.hp)) := by
      rw [← htuple]
      exact List.mem_map_of_mem _ hw
    rcases List.mem_map.mp hm with ⟨su, hsu, he⟩
    simp only [Prod.mk.injEq] at he
    exact ⟨su, hsu, he.1, he.2.1, he.2.2.1, he.2.2.2⟩
  set IDX := buildPosIndex UP with hIDXdef
  set MV := filterMoveOrders UP orders with hMVdef
  set M := movementIntents eng.map_radius UP MV with hMdef
  set B := movementBounced hashFn UP UP IDX M with hBdef
  have hU2 : resolve_movement hashFn eng.map_radius UP UP IDX MV =
      execMoves UP M B := rfl
  rw [hU2]
  -- the only derefs combat performs hit units with preserved owner and hp
  have hderef := fun (w : UnitState) (hw : w ∈ UP) =>
    execMoves_deref UP M B w hndUP hw
  -- skip every hex in combat
  have hskip : ∀ p ∈ IDX, ∀ d0 r0, p.2 = d0 :: r0 →
      incomingRaw (researchPhase (researchPhase
          { map_radius := eng.map_radius,
            resources := (resetMpAndUpkeep (state.tick + 1) eng.resources
              state.units).1,
            upgrades := eng.upgrades } [] orders).1
          (researchPhase
          { map_radius := eng.map_radius,
            resources := (resetMpAndUpkeep (state.tick + 1) eng.resources
              state.units).1,
            upgrades := eng.upgrades } [] orders).2 orders).1
        (execMoves UP M B) IDX (idOwner (execMoves UP M B) d0) p.1 ≤ 0 := by
    intro p hp d0 r0 hp2
    have hbkt : posGet IDX p.1 = p.2 :=
      bucket_eq_posGet _ p (buildPosIndex_keys_nodup UP) hp
    have hd0 : d0 ∈ posGet IDX p.1 := by
      rw [hbkt, hp2]
      exact List.mem_cons_self _ _
    rw [hIDXdef, posGet_buildPosIndex] at hd0
    rcases List.mem_map.mp hd0 with ⟨w0, hw0f, hw0id⟩
    rcases List.mem_filter.mp hw0f with ⟨hw0mem, hw0hex⟩
    have hw0hex2 : (⟨w0.q, w0.r⟩ : Hex) = p.1 := by simpa using hw0hex
    rcases hderef w0 hw0mem with ⟨w2, hw2get, hw2id, hw2own, hw2hp⟩
    have hownerDef : idOwner (execMoves UP M B) d0 = w0.owner := by
      rw [idOwner, ← hw0id, hw2get]
      simp [hw2own]
    refine le_of_eq (incomingRaw_zero _ _ _ _ _ ?_)
    intro n hn occId hocc a ha
    rw [hIDXdef, posGet_buildPosIndex] at hocc
    rcases List.mem_map.mp hocc with ⟨w1, hw1f, hw1id⟩
    rcases List.mem_filter.mp hw1f with ⟨hw1mem, hw1hex⟩
    have hw1hex2 : (⟨w1.q, w1.r⟩ : Hex) = n := by simpa using hw1hex
    rcases hderef w1 hw1mem with ⟨w3, hw3get, hw3id, hw3own, hw3hp⟩
    rw [← hw1id, hw3get] at ha
    injection ha with ha
    subst ha
    rw [hw3own, hownerDef]
    by_contra hne
    rcases htrans w1 hw1mem with ⟨su1, hsu1, e1q, e1r, e1o, e1h⟩
    rcases htrans w0 hw0mem with ⟨su0, hsu0, e0q, e0r, e0o, e0h⟩
    have hone : hex_distance ⟨su1.q, su1.r⟩ ⟨su0.q, su0.r⟩ = 1 := by
      rw [e1q, e1r, e0q, e0r, hw1hex2, hw0hex2]
      exact hex_distance_neighbor p.1 n hn
    exact hadj su1 hsu1 su0 hsu0 (by rw [e1o, e0o]; exact hne) hone
  have hcp := fun acc => combat_fold_skip _ (execMoves UP M B) IDX IDX acc hskip
  rw [combatPending, hcp]
  rw [applyDamage_nil]
  have hfilter : (execMoves UP M B).filter (fun u => 1/2 < u.hp) =
      execMoves UP M B := by
    rw [List.filter_eq_self]
    intro u hu
    have hhpmap : (execMoves UP M B).map (fun u => u.hp) =
        state.units.map (fun u => u.hp) := by
      rw [execMoves_map UP M B (fun u => u.hp) (fun u q r mp => rfl)]
      exact resetMpAndUpkeep_map _ _ _ _ (fun u m => rfl)
    have hm2 : u.hp ∈ state.units.map (fun u => u.hp) := by
      rw [← hhpmap]
      exact List.mem_map_of_mem _ hu
    rcases List.mem_map.mp hm2 with ⟨su, hsu, he⟩
    simpa [← he] using hhp su hsu
  rw [hfilter]
  rw [execMoves_map UP M B (fun u => (u.id, u.hp)) (fun u q r mp => rfl)]
  exact resetMpAndUpkeep_map _ _ _ _ (fun u m => rfl)


unseal Rat.add Rat.mul Rat.sub Rat.inv in
/-- C1 amended, witness: in the stale-index scenario (hostile r1 and b1
ten hexes apart, r1 ordered right next to b1) the tick leaves every id
and HP unchanged. -/
theorem C1_amended_witness :
    (process_tick fxHash fxGen fxEng0 fxStFar fxOrdFar).2.units.map
        (fun u => (u.id, u.hp)) =
      fxStFar.units.map (fun u => (u.id, u.hp)) :=
  C1_amended fxHash fxGen fxEng0 fxStFar fxOrdFar
    (by
      intro po hpo fid k
      simp only [fxOrdFar, List.mem_singleton] at hpo
      subst hpo
      simp)
    (by decide) (by decide) (by decide)

/-! ## Generic counting and fixed-point lemmas for the stack-cap proof -/

theorem countP_le_add {α : Type} (l : List α) (p q r : α → Bool)
    (h : ∀ u ∈ l, p u = true → q u = true ∨ r u = true) :
    l.countP p ≤ l.countP q + l.countP r := by
  induction l with
  | nil => simp
  | cons u rest ih =>
      have ih2 := ih (fun v hv => h v (List.mem_cons_of_mem _ hv))
      by_cases hp : p u = true
      · rcases h u (List.mem_cons_self _ _) hp with hq | hr
        · simp only [List.countP_cons, hp, hq]
          omega
        · simp only [List.countP_cons, hp, hr]
          omega
      · simp only [List.countP_cons, if_neg hp]
        split <;> split <;> omega

theorem countP_le_one {α : Type} (l : List α) (p : α → Bool) (hnd : l.Nodup)
    (h : ∀ u ∈ l, ∀ v ∈ l, p u = true → p v = true → u = v) :
    l.countP p ≤ 1 := by
  induction l with
  | nil => simp
  | cons u rest ih =>
      rw [List.nodup_cons] at hnd
      by_cases hp : p u = true
      · have hzero : rest.countP p = 0 := by
          rw [List.countP_eq_zero]
          intro v hv hpv
          have := h v (List.mem_cons_of_mem _ hv) u (List.mem_cons_self _ _)
            hpv hp
          exact hnd.1 (this ▸ hv)
        rw [List.countP_cons, hzero, if_pos hp]
      · rw [List.countP_cons, if_neg hp]
        have := ih hnd.2 (fun v hv w hw hpv hpw =>
          h v (List.mem_cons_of_mem _ hv) w (List.mem_cons_of_mem _ hw) hpv hpw)
        omega

theorem countP_mono {α : Type} (l : List α) (p q : α → Bool)
    (h : ∀ u ∈ l, p u = true → q u = true) : l.countP p ≤ l.countP q := by
  induction l with
  | nil => simp
  | cons u rest ih =>
      have ih2 := ih (fun v hv => h v (List.mem_cons_of_mem _ hv))
      by_cases hp : p u = true
      · rw [List.countP_cons, List.countP_cons, if_pos hp,
          if_pos (h u (List.mem_cons_self _ _) hp)]
        omega
      · rw [List.countP_cons, List.countP_cons, if_neg hp]
        split <;> omega

theorem foldl_infl {α : Type} (f : Finset String → α → Finset String)
    (hf : ∀ b x, b ⊆ f b x) (l : List α) (b0 : Finset String) :
    b0 ⊆ l.foldl f b0 := by
  induction l generalizing b0 with
  | nil => exact Finset.Subset.refl _
  | cons x xs ih => exact (hf b0 x).trans (ih (f b0 x))

theorem foldl_fix_point {α : Type} (f : Finset String → α → Finset String)
    (hf : ∀ b x, b ⊆ f b x) (l : List α) (b : Finset String)
    (hfix : l.foldl f b = b) : ∀ x ∈ l, f b x = b := by
  induction l with
  | nil => simp
  | cons y ys ih =>
      rw [List.foldl_cons] at hfix
      have h1 : f b y = b := by
        refine Finset.Subset.antisymm ?_ (hf b y)
        conv_rhs => rw [← hfix]
        exact foldl_infl f hf ys (f b y)
      intro x hx
      rcases List.mem_cons.mp hx with hx | hx
      · rw [hx]; exact h1
      · exact ih (by rw [h1] at hfix; exact hfix) x hx

theorem iterate_fix_of_fix (f : Finset String → Finset String)
    (b : Finset String) (hfix : f b = b) : ∀ k, f^[k] b = b := by
  intro k
  induction k with
  | zero => rfl
  | succ n ih => rw [Function.iterate_succ_apply, hfix, ih]

theorem iterate_stable (f : Finset String → Finset String) (K : Finset String)
    (hincl : ∀ b, b ⊆ f b) (hbound : ∀ b, f b ⊆ b ∪ K) (b0 : Finset String)
    (N : Nat) (hN : K.card ≤ N) : f (f^[N + 1] b0) = f^[N + 1] b0 := by
  have hsub : ∀ m : Nat, f^[m] b0 ⊆ b0 ∪ K := by
    intro m
    induction m with
    | zero => exact Finset.subset_union_left
    | succ n ih =>
        rw [Function.iterate_succ_apply']
        refine (hbound _).trans ?_
        exact Finset.union_subset (ih.trans (Finset.Subset.refl _))
          Finset.subset_union_right
  have hgrow : ∀ m : Nat, (∀ i < m, f (f^[i] b0) ≠ f^[i] b0) →
      b0.card + m ≤ (f^[m] b0).card := by
    intro m
    induction m with
    | zero => simp
    | succ n ih =>
        intro hne
        have h1 := ih (fun i hi => hne i (Nat.lt_succ_of_lt hi))
        have h2 : f^[n] b0 ⊂ f^[n + 1] b0 := by
          rw [Function.iterate_succ_apply']
          exact Finset.ssubset_iff_subset_ne.mpr
            ⟨hincl _, fun he => hne n (Nat.lt_succ_self n) he.symm⟩
        have := Finset.card_lt_card h2
        omega
  have hex : ∃ i, i ≤ N ∧ f (f^[i] b0) = f^[i] b0 := by
    by_contra hc
    push_neg at hc
    have hne : ∀ i < N + 1, f (f^[i] b0) ≠ f^[i] b0 := by
      intro i hi
      exact hc i (Nat.lt_succ_iff.mp hi)
    have h1 := hgrow (N + 1) hne
    have h2 := Finset.card_le_card (hsub (N + 1))
    have h3 := Finset.card_union_le b0 K
    omega
  rcases hex with ⟨i, hiN, hifix⟩
  have hall : f^[N + 1] b0 = f^[i] b0 := by
    have : N + 1 = (N + 1 - i) + i := by omega
    rw [this, Function.iterate_add_apply]
    exact iterate_fix_of_fix f _ hifix _
  rw [hall]
  exact hifix

theorem intentGet_mem (m : Intents) (x : String) (v : Hex × Hex)
    (h : intentGet m x = some v) : (x, v) ∈ m := by
  unfold intentGet at h
  cases hf : m.find? (fun p => p.1 = x) with
  | none => rw [hf] at h; simp at h
  | some p =>
      rw [hf] at h
      simp at h
      have hm := List.mem_of_find?_eq_some hf
      have hx := List.find?_some hf
      simp at hx
      have : p = (x, v) := by
        rcases p with ⟨a, b⟩
        simp at hx h
        rw [hx, h]
      exact this ▸ hm

theorem isSome_intentGet_of_any (m : Intents) (x : String)
    (h : m.any (fun p => p.1 = x) = true) :
    ∃ v, intentGet m x = some v := by
  unfold intentGet
  cases hf : m.find? (fun p => p.1 = x) with
  | none =>
      rw [List.find?_eq_none] at hf
      rcases List.any_eq_true.mp h with ⟨p, hp, he⟩
      exact absurd he (by simpa using hf p hp)
  | some p => exact ⟨p.2, by simp⟩

theorem phaseBStep_infl (A P : List UnitState) (idx : PosIndex) (m : Intents)
    (b : Finset String) (p : String × Hex × Hex) :
    b ⊆ phaseBStep A P idx m b p := by
  unfold phaseBStep
  split
  · exact Finset.Subset.refl _
  · apply foldl_infl
    intro b2 occId
    split
    · exact (Finset.subset_insert _ _).trans (Finset.subset_insert _ _)
    · exact Finset.Subset.refl _

theorem phaseCOne_infl (A P : List UnitState) (idx : PosIndex) (m : Intents)
    (b : Finset String) (p : String × Hex × Hex) :
    b ⊆ phaseCOne A P idx m b p := by
  unfold phaseCOne
  split
  · exact Finset.Subset.refl _
  · split
    · exact Finset.subset_insert _ _
    · exact Finset.Subset.refl _

theorem phaseCOne_sub (A P : List UnitState) (idx : PosIndex) (m : Intents)
    (b : Finset String) (p : String × Hex × Hex) :
    phaseCOne A P idx m b p ⊆ insert p.1 b := by
  unfold phaseCOne
  split
  · exact Finset.subset_insert _ _
  · split
    · exact Finset.Subset.refl _
    · exact Finset.subset_insert _ _

theorem phaseB_infl (A P : List UnitState) (idx : PosIndex) (m : Intents)
    (b0 : Finset String) : b0 ⊆ phaseB A P idx m b0 :=
  foldl_infl _ (phaseBStep_infl A P idx m) m b0

theorem phaseCstep_infl (A P : List UnitState) (idx : PosIndex) (m : Intents)
    (b0 : Finset String) : b0 ⊆ phaseCstep A P idx m b0 :=
  foldl_infl _ (phaseCOne_infl A P idx m) m b0

theorem iterate_infl (f : Finset String → Finset String)
    (hf : ∀ b, b ⊆ f b) (k : Nat) (b0 : Finset String) : b0 ⊆ f^[k] b0 := by
  induction k generalizing b0 with
  | zero => exact Finset.Subset.refl _
  | succ n ih =>
      rw [Function.iterate_succ_apply]
      exact (hf b0).trans (ih (f b0))

theorem phaseC_infl (A P : List UnitState) (idx : PosIndex) (m : Intents)
    (b0 : Finset String) : b0 ⊆ phaseC A P idx m b0 :=
  iterate_infl _ (phaseCstep_infl A P idx m) _ b0

theorem phaseA_sub_movementBounced (hashFn : String → Nat)
    (A P : List UnitState) (idx : PosIndex) (m : Intents) :
    phaseA (sortKey hashFn P) m ⊆ movementBounced hashFn A P idx m := by
  unfold movementBounced
  exact (phaseB_infl A P idx m _).trans (phaseC_infl A P idx m _)

theorem phaseCstep_bound (A P : List UnitState) (idx : PosIndex) (m : Intents) :
    ∀ (l : List (String × Hex × Hex)) (b : Finset String),
      l.foldl (phaseCOne A P idx m) b ⊆ b ∪ (l.map Prod.fst).toFinset := by
  intro l
  induction l with
  | nil => simp
  | cons p rest ih =>
      intro b
      rw [List.foldl_cons]
      refine (ih _).trans ?_
      intro x hx
      rcases Finset.mem_union.mp hx with hx | hx
      · rcases Finset.mem_insert.mp ((phaseCOne_sub A P idx m b p) hx)
          with hx | hx
        · simp [hx]
        · simp [hx]
      · simp only [List.map_cons, List.toFinset_cons, Finset.mem_union,
          Finset.mem_insert]
        right
        right
        simpa using hx

theorem one_lt_length_of_two_mem {α : Type} (l : List α) (a b : α)
    (ha : a ∈ l) (hb : b ∈ l) (hne : a ≠ b) : 1 < l.length := by
  rcases l with _ | ⟨x, _ | ⟨y, rest⟩⟩
  · simp at ha
  · simp at ha hb
    exact absurd (ha.trans hb.symm) hne
  · simp only [List.length_cons]
    omega

theorem pickWinner_some (key : String → Int) (l : List String) (h : l ≠ []) :
    ∃ w, pickWinner key l = some w := by
  cases l with
  | nil => exact absurd rfl h
  | cons x xs => exact ⟨_, rfl⟩

theorem phaseA_same_target (key : String → Int) (m : Intents)
    (u1 u2 : String) (t : Hex) (o1 o2 : Hex)
    (h1 : (u1, t, o1) ∈ m) (h2 : (u2, t, o2) ∈ m) (hne : u1 ≠ u2) :
    u1 ∈ phaseA key m ∨ u2 ∈ phaseA key m := by
  have hu1 : u1 ∈ posGet (groupByTarget m) t := by
    rw [posGet_groupByTarget]
    exact List.mem_map.mpr ⟨(u1, t, o1), List.mem_filter.mpr ⟨h1, by simp⟩, rfl⟩
  have hu2 : u2 ∈ posGet (groupByTarget m) t := by
    rw [posGet_groupByTarget]
    exact List.mem_map.mpr ⟨(u2, t, o2), List.mem_filter.mpr ⟨h2, by simp⟩, rfl⟩
  have hne2 : posGet (groupByTarget m) t ≠ [] := List.ne_nil_of_mem hu1
  have hmem : (t, posGet (groupByTarget m) t) ∈ groupByTarget m :=
    posGet_mem _ _ hne2
  have hlen : 1 < (posGet (groupByTarget m) t).length :=
    one_lt_length_of_two_mem _ u1 u2 hu1 hu2 hne
  rcases pickWinner_some key _ hne2 with ⟨w, hw⟩
  by_cases h1w : u1 = w
  · right
    rw [phaseA, mem_foldl_union]
    refine Or.inr ⟨_, hmem, ?_⟩
    unfold phaseALosers
    rw [if_pos hlen, hw, List.mem_toFinset, List.mem_filter]
    refine ⟨hu2, ?_⟩
    simp only [decide_eq_true_eq]
    exact fun h => hne (h1w.trans h.symm)
  · left
    rw [phaseA, mem_foldl_union]
    refine Or.inr ⟨_, hmem, ?_⟩
    unfold phaseALosers
    rw [if_pos hlen, hw, List.mem_toFinset, List.mem_filter]
    exact ⟨hu1, by simp [h1w]⟩

theorem phaseC_stable (A P : List UnitState) (idx : PosIndex) (m : Intents)
    (b0 : Finset String) :
    phaseCstep A P idx m (phaseC A P idx m b0) = phaseC A P idx m b0 := by
  unfold phaseC
  exact iterate_stable (phaseCstep A P idx m) ((m.map Prod.fst).toFinset)
    (phaseCstep_infl A P idx m)
    (fun b => phaseCstep_bound A P idx m m b) b0 m.length
    ((List.toFinset_card_le _).trans (by simp))

theorem mem_eq_of_nodup_map {α β : Type} (f : α → β) (l : List α)
    (hnd : (l.map f).Nodup) (u v : α) (hu : u ∈ l) (hv : v ∈ l)
    (he : f u = f v) : u = v := by
  induction l with
  | nil => simp at hu
  | cons x rest ih =>
      rw [List.map_cons, List.nodup_cons] at hnd
      rcases List.mem_cons.mp hu with h1 | h1 <;>
        rcases List.mem_cons.mp hv with h2 | h2
      · rw [h1, h2]
      · subst h1
        refine absurd ?_ hnd.1
        rw [he]
        exact List.mem_map_of_mem f h2
      · subst h2
        refine absurd ?_ hnd.1
        rw [← he]
        exact List.mem_map_of_mem f h1
      · exact ih hnd.2 h1 h2

theorem blockedC_false (allUnits unitsPre : List UnitState) (idx : PosIndex)
    (m : Intents) (b : Finset String) (uid : String) (target : Hex)
    (hlen : 10 ≤ (posGet idx target).length)
    (hb : blockedC allUnits unitsPre idx m b uid target = false) :
    ∀ occId ∈ posGet idx target,
      m.any (fun p => p.1 = occId) = true ∧ occId ∉ b := by
  intro occId hocc
  simp only [blockedC, List.any_eq_false] at hb
  have h := hb occId hocc
  by_cases ho : (((unitsById allUnits occId).map (fun u => u.owner)).getD none ≠
      ((unitsById unitsPre uid).map (fun u => u.owner)).getD none)
  · exact absurd (by rw [if_pos ho]) h
  · by_cases hany : m.any (fun p => p.1 = occId) = true
    · by_cases hmem : occId ∈ b
      · exfalso
        apply h
        rw [if_neg ho, if_neg (not_not_intro hany), if_pos hmem]
        exact decide_eq_true hlen
      · exact ⟨hany, hmem⟩
    · exfalso
      apply h
      rw [if_neg ho, if_pos hany]
      exact decide_eq_true hlen

theorem not_blocked_of_fix (allUnits unitsPre : List UnitState)
    (idx : PosIndex) (m : Intents) (b : Finset String) (p : String × Hex × Hex)
    (hfix : phaseCOne allUnits unitsPre idx m b p = b) (hnb : p.1 ∉ b) :
    blockedC allUnits unitsPre idx m b p.1 p.2.1 = false := by
  by_contra hbl
  rw [Bool.not_eq_false] at hbl
  rw [phaseCOne, if_neg hnb, if_pos hbl] at hfix
  exact hnb (hfix ▸ Finset.mem_insert_self p.1 b)

theorem resetMpAndUpkeep_ids (tick : Int) (res : List (String × Resources))
    (us : List UnitState) :
    (resetMpAndUpkeep tick res us).2.map (fun u => u.id) =
      us.map (fun u => u.id) :=
  resetMpAndUpkeep_map tick res us (fun u => u.id) (fun _ _ => rfl)

theorem resetMpAndUpkeep_hex (tick : Int) (res : List (String × Resources))
    (us : List UnitState) :
    (resetMpAndUpkeep tick res us).2.map (fun u => (⟨u.q, u.r⟩ : Hex)) =
      us.map (fun u => (⟨u.q, u.r⟩ : Hex)) :=
  resetMpAndUpkeep_map tick res us _ (fun _ _ => rfl)

theorem filter_length_eq_of_map_hex (us vs : List UnitState)
    (hm : us.map (fun u => (⟨u.q, u.r⟩ : Hex)) =
      vs.map (fun u => (⟨u.q, u.r⟩ : Hex))) (X : Hex) :
    (us.filter (fun u => (⟨u.q, u.r⟩ : Hex) = X)).length =
      (vs.filter (fun u => (⟨u.q, u.r⟩ : Hex) = X)).length := by
  have h1 : ∀ ws : List UnitState,
      (ws.filter (fun u => (⟨u.q, u.r⟩ : Hex) = X)).length =
        (ws.map (fun u => (⟨u.q, u.r⟩ : Hex))).countP (fun h => h = X) := by
    intro ws
    rw [← List.countP_eq_length_filter, List.countP_map]
    rfl
  rw [h1, h1, hm]

theorem applyDamage_count (us : List UnitState) (pend : List (String × ℚ))
    (X : Hex) :
    ((applyDamage us pend).filter (fun u => (⟨u.q, u.r⟩ : Hex) = X)).length ≤
      (us.filter (fun u => (⟨u.q, u.r⟩ : Hex) = X)).length := by
  unfold applyDamage
  rw [← List.countP_eq_length_filter, ← List.countP_eq_length_filter]
  refine le_trans (List.Sublist.countP_le _ (List.filter_sublist _)) ?_
  rw [List.countP_map]
  apply le_of_eq
  apply List.countP_congr
  intro u _
  cases h : alookup pend u.id <;> simp [h]

theorem handleBuild_inv (gen : Nat → String) (player facId : String)
    (kind : UnitType) (facs : List FacilityState) (orig : List UnitState)
    (n : Nat) (st : BuildSt)
    (hf1 : ∀ k < n, ("u_" ++ gen k) ∉ orig.map (fun u => u.id))
    (hf2 : ∀ k < n, ∀ l < n, k ≠ l → ("u_" ++ gen k) ≠ ("u_" ++ gen l))
    (hacc : ∀ h : Hex, posGet st.idx h =
      (st.units.filter (fun u => (⟨u.q, u.r⟩ : Hex) = h)).map (fun u => u.id))
    (hcap : ∀ h : Hex,
      (st.units.filter (fun u => (⟨u.q, u.r⟩ : Hex) = h)).length ≤ 10)
    (hnd : (st.units.map (fun u => u.id)).Nodup)
    (hids : ∀ uid ∈ st.units.map (fun u => u.id),
      uid ∈ orig.map (fun u => u.id) ∨ ∃ j < st.ctr, uid = "u_" ++ gen j)
    (hctr : st.ctr < n) :
    (∀ h : Hex, posGet (handleBuild gen player facId kind facs st).idx h =
      ((handleBuild gen player facId kind facs st).units.filter
        (fun u => (⟨u.q, u.r⟩ : Hex) = h)).map (fun u => u.id)) ∧
    (∀ h : Hex,
      ((handleBuild gen player facId kind facs st).units.filter
        (fun u => (⟨u.q, u.r⟩ : Hex) = h)).length ≤ 10) ∧
    ((handleBuild gen player facId kind facs st).units.map
      (fun u => u.id)).Nodup ∧
    (∀ uid ∈ (handleBuild gen player facId kind facs st).units.map
        (fun u => u.id),
      uid ∈ orig.map (fun u => u.id) ∨
        ∃ j < (handleBuild gen player facId kind facs st).ctr,
          uid = "u_" ++ gen j) ∧
    (handleBuild gen player facId kind facs st).ctr ≤ st.ctr + 1 := by
  unfold handleBuild
  cases hfac : facilitiesById facs facId with
  | none => exact ⟨hacc, hcap, hnd, hids, Nat.le_succ _⟩
  | some fac =>
      dsimp only
      by_cases how : fac.owner ≠ some player
      · rw [if_pos how]
        exact ⟨hacc, hcap, hnd, hids, Nat.le_succ _⟩
      · rw [if_neg how]
        by_cases hfull : 10 ≤ (posGet st.idx (⟨fac.q, fac.r⟩ : Hex)).length
        · rw [if_pos hfull]
          exact ⟨hacc, hcap, hnd, hids, Nat.le_succ _⟩
        · rw [if_neg hfull]
          by_cases haff :
              (costOf kind).M ≤ ((alookup st.eng.resources player).getD
                ⟨0, 0, 0⟩).M ∧
              (costOf kind).F ≤ ((alookup st.eng.resources player).getD
                ⟨0, 0, 0⟩).F ∧
              (costOf kind).I ≤ ((alookup st.eng.resources player).getD
                ⟨0, 0, 0⟩).I
          case neg =>
            rw [if_neg haff]
            exact ⟨hacc, hcap, hnd, hids, Nat.le_succ _⟩
          case pos =>
          rw [if_pos haff]
          have huidnew : ("u_" ++ gen st.ctr) ∉
              st.units.map (fun u => u.id) := by
            intro hmem
            rcases hids _ hmem with hor | ⟨j, hj, hje⟩
            · exact hf1 st.ctr hctr hor
            · exact hf2 st.ctr hctr j (lt_trans hj hctr)
                (Nat.ne_of_gt hj) hje
          refine ⟨?_, ?_, ?_, ?_, Nat.le_refl _⟩
          · intro h
            show posGet (posInsert st.idx ⟨fac.q, fac.r⟩ ("u_" ++ gen st.ctr)) h
              = _
            rw [posGet_posInsert]
            by_cases he : h = (⟨fac.q, fac.r⟩ : Hex)
            · rw [if_pos he, hacc, List.filter_append, List.map_append]
              subst he
              congr 1
              simp
            · rw [if_neg he, hacc, List.filter_append, List.map_append]
              have hf : ([(⟨"u_" ++ gen st.ctr, kind, fac.q, fac.r,
                  unitMaxHp kind, unitMaxMp kind,
                  some player⟩ : UnitState)].filter
                  (fun u => (⟨u.q, u.r⟩ : Hex) = h)) = [] := by
                simp only [List.filter_cons, List.filter_nil]
                rw [if_neg]
                simp only [decide_eq_true_eq]
                exact fun hc => he (hc ▸ rfl)
              rw [hf]
              simp
          · intro h
            show ((st.units ++ [_]).filter
                (fun (u : UnitState) => (⟨u.q, u.r⟩ : Hex) = h)).length ≤ 10
            rw [List.filter_append, List.length_append]
            by_cases he : h = (⟨fac.q, fac.r⟩ : Hex)
            · have hlt : (st.units.filter
                  (fun u => (⟨u.q, u.r⟩ : Hex) = h)).length ≤ 9 := by
                have := hacc (⟨fac.q, fac.r⟩ : Hex)
                rw [this, List.length_map] at hfull
                subst he
                omega
              have hone : ([(⟨"u_" ++ gen st.ctr, kind, fac.q, fac.r,
                  unitMaxHp kind, unitMaxMp kind,
                  some player⟩ : UnitState)].filter
                  (fun u => (⟨u.q, u.r⟩ : Hex) = h)).length ≤ 1 :=
                List.length_filter_le _ _
              omega
            · have hz : ([(⟨"u_" ++ gen st.ctr, kind, fac.q, fac.r,
                  unitMaxHp kind, unitMaxMp kind,
                  some player⟩ : UnitState)].filter
                  (fun u => (⟨u.q, u.r⟩ : Hex) = h)) = [] := by
                simp only [List.filter_cons, List.filter_nil]
                rw [if_neg]
                simp only [decide_eq_true_eq]
                exact fun hc => he (hc ▸ rfl)
              rw [hz]
              have := hcap h
              simp only [List.length_nil]
              omega
          · show ((st.units ++ [_]).map (fun (u : UnitState) => u.id)).Nodup
            rw [List.map_append]
            refine List.Nodup.append hnd (by simp) ?_
            intro a ha hb
            simp only [List.map_cons, List.map_nil, List.mem_singleton] at hb
            exact huidnew (hb ▸ ha)
          · intro uid hmem
            show uid ∈ orig.map (fun u => u.id) ∨
              ∃ j < st.ctr + 1, uid = "u_" ++ gen j
            rw [List.map_append] at hmem
            rcases List.mem_append.mp hmem with hm | hm
            · rcases hids uid hm with hor | ⟨j, hj, hje⟩
              · exact Or.inl hor
              · exact Or.inr ⟨j, Nat.lt_succ_of_lt hj, hje⟩
            · simp only [List.map_cons, List.map_nil,
                List.mem_singleton] at hm
              exact Or.inr ⟨st.ctr, Nat.lt_succ_self _, hm⟩

theorem buildPhase_inv (gen : Nat → String) (facs : List FacilityState)
    (orig : List UnitState) (n : Nat)
    (hf1 : ∀ k < n, ("u_" ++ gen k) ∉ orig.map (fun u => u.id))
    (hf2 : ∀ k < n, ∀ l < n, k ≠ l → ("u_" ++ gen k) ≠ ("u_" ++ gen l)) :
    ∀ (ords : List (String × Order)) (st : BuildSt),
      (∀ h : Hex, posGet st.idx h =
        (st.units.filter (fun u => (⟨u.q, u.r⟩ : Hex) = h)).map
          (fun u => u.id)) →
      (∀ h : Hex,
        (st.units.filter (fun u => (⟨u.q, u.r⟩ : Hex) = h)).length ≤ 10) →
      (st.units.map (fun u => u.id)).Nodup →
      (∀ uid ∈ st.units.map (fun u => u.id),
        uid ∈ orig.map (fun u => u.id) ∨ ∃ j < st.ctr, uid = "u_" ++ gen j) →
      st.ctr + ords.length ≤ n →
      (∀ h : Hex, posGet (buildPhase gen facs st ords).idx h =
        ((buildPhase gen facs st ords).units.filter
          (fun u => (⟨u.q, u.r⟩ : Hex) = h)).map (fun u => u.id)) ∧
      (∀ h : Hex,
        ((buildPhase gen facs st ords).units.filter
          (fun u => (⟨u.q, u.r⟩ : Hex) = h)).length ≤ 10) ∧
      ((buildPhase gen facs st ords).units.map (fun u => u.id)).Nodup := by
  intro ords
  induction ords with
  | nil =>
      intro st hacc hcap hnd hids hctr
      exact ⟨hacc, hcap, hnd⟩
  | cons po rest ih =>
      intro st hacc hcap hnd hids hctr
      rw [List.length_cons] at hctr
      match hpo : po.2 with
      | .MOVE uid dest =>
          rw [buildPhase, hpo]
          exact ih st hacc hcap hnd hids (by omega)
      | .RESEARCH tech =>
          rw [buildPhase, hpo]
          exact ih st hacc hcap hnd hids (by omega)
      | .BUILD facId kind =>
          rw [buildPhase, hpo]
          have hstep := handleBuild_inv gen po.1 facId kind facs orig n st
            hf1 hf2 hacc hcap hnd hids (by omega)
          exact ih _ hstep.1 hstep.2.1 hstep.2.2.1 hstep.2.2.2.1
            (by have := hstep.2.2.2.2; omega)

theorem execMoves_cap_core (A unitsPre : List UnitState) (idx : PosIndex)
    (m : Intents) (key : String → Int) (B : Finset String)
    (hnd : (A.map (fun u => u.id)).Nodup)
    (hacc : ∀ h : Hex, posGet idx h =
      (A.filter (fun u => (⟨u.q, u.r⟩ : Hex) = h)).map (fun u => u.id))
    (hcap : ∀ h : Hex,
      (A.filter (fun u => (⟨u.q, u.r⟩ : Hex) = h)).length ≤ 10)
    (hAsub : phaseA key m ⊆ B)
    (hstab : phaseCstep A unitsPre idx m B = B)
    (X : Hex) :
    ((execMoves A m B).filter
      (fun u => (⟨u.q, u.r⟩ : Hex) = X)).length ≤ 10 := by
  rw [← List.countP_eq_length_filter, execMoves_eq_map, List.countP_map]
  have hndA : A.Nodup := List.Nodup.of_map _ hnd
  have hq1 : A.countP (fun u =>
      match intentGet m u.id with
      | some v => decide (v.1 = X ∧ u.id ∉ B)
      | none => false) ≤ 1 := by
    refine countP_le_one A _ hndA ?_
    intro u hu v hv hqu hqv
    cases hiu : intentGet m u.id with
    | none =>
        simp only [hiu] at hqu
        exact absurd hqu (by decide)
    | some vu =>
        rcases vu with ⟨tu, ou⟩
        simp only [hiu, decide_eq_true_eq] at hqu
        cases hiv : intentGet m v.id with
        | none =>
            simp only [hiv] at hqv
            exact absurd hqv (by decide)
        | some vv =>
            rcases vv with ⟨tv, ov⟩
            simp only [hiv, decide_eq_true_eq] at hqv
            by_cases he : u.id = v.id
            · exact mem_eq_of_nodup_map _ A hnd u v hu hv he
            · exfalso
              have hmu : (u.id, X, ou) ∈ m := by
                have h0 := intentGet_mem m u.id (tu, ou) hiu
                rwa [hqu.1] at h0
              have hmv : (v.id, X, ov) ∈ m := by
                have h0 := intentGet_mem m v.id (tv, ov) hiv
                rwa [hqv.1] at h0
              rcases phaseA_same_target key m u.id v.id X ou ov hmu hmv he
                with hA | hA
              · exact hqu.2 (hAsub hA)
              · exact hqv.2 (hAsub hA)
  refine le_trans (countP_le_add A _
    (fun u => match intentGet m u.id with
      | some v => decide (v.1 = X ∧ u.id ∉ B)
      | none => false)
    (fun u => decide ((⟨u.q, u.r⟩ : Hex) = X ∧
      (intentGet m u.id = none ∨ u.id ∈ B)))
    ?_) ?_
  · intro u hu hp
    simp only [Function.comp_apply] at hp
    cases hi : intentGet m u.id with
    | none =>
        right
        simp only [hi] at hp
        rw [decide_eq_true_eq] at hp
        exact decide_eq_true ⟨hp, Or.inl hi⟩
    | some v =>
        rcases v with ⟨t, o⟩
        by_cases hb : u.id ∈ B
        · right
          simp only [hi] at hp
          rw [if_pos hb, decide_eq_true_eq] at hp
          exact decide_eq_true ⟨hp, Or.inr hb⟩
        · left
          simp only [hi] at hp ⊢
          rw [if_neg hb, decide_eq_true_eq] at hp
          rw [decide_eq_true_eq]
          exact ⟨hp, hb⟩
  · by_cases hfull : 10 ≤ (A.filter
        (fun u => (⟨u.q, u.r⟩ : Hex) = X)).length
    case neg =>
      have hr : A.countP (fun u => decide ((⟨u.q, u.r⟩ : Hex) = X ∧
          (intentGet m u.id = none ∨ u.id ∈ B))) ≤
          A.countP (fun u => decide ((⟨u.q, u.r⟩ : Hex) = X)) := by
        refine countP_mono A _ _ ?_
        intro u hu hru
        rw [decide_eq_true_eq] at hru ⊢
        exact hru.1
      have hc : A.countP (fun u => decide ((⟨u.q, u.r⟩ : Hex) = X)) =
          (A.filter (fun u => (⟨u.q, u.r⟩ : Hex) = X)).length :=
        List.countP_eq_length_filter _ _
      omega
    case pos =>
      have hr10 : A.countP (fun u => decide ((⟨u.q, u.r⟩ : Hex) = X ∧
          (intentGet m u.id = none ∨ u.id ∈ B))) ≤ 10 := by
        refine le_trans (countP_mono A _
          (fun u => decide ((⟨u.q, u.r⟩ : Hex) = X)) ?_) ?_
        · intro u hu hru
          rw [decide_eq_true_eq] at hru ⊢
          exact hru.1
        · rw [List.countP_eq_length_filter]
          exact hcap X
      by_cases hq0 : A.countP (fun u =>
          match intentGet m u.id with
          | some v => decide (v.1 = X ∧ u.id ∉ B)
          | none => false) = 0
      · omega
      · rcases List.countP_pos_iff.mp (Nat.pos_of_ne_zero hq0) with ⟨u, hu, hqu⟩
        have hex : ∃ ou, intentGet m u.id = some (X, ou) ∧ u.id ∉ B := by
          cases hiu : intentGet m u.id with
          | none =>
              simp only [hiu] at hqu
              exact absurd hqu (by decide)
          | some vu =>
              rcases vu with ⟨tu, ou⟩
              simp only [hiu, decide_eq_true_eq] at hqu
              exact ⟨ou, by rw [hqu.1], hqu.2⟩
        rcases hex with ⟨ou, hiu, hnbu⟩
        have hmem : (u.id, X, ou) ∈ m := intentGet_mem m u.id (X, ou) hiu
        have hstab2 : m.foldl (phaseCOne A unitsPre idx m) B = B := hstab
        have hfix := foldl_fix_point (phaseCOne A unitsPre idx m)
          (phaseCOne_infl A unitsPre idx m) m B hstab2 (u.id, X, ou) hmem
        have hnb := not_blocked_of_fix A unitsPre idx m B (u.id, X, ou)
          hfix hnbu
        have hlen10 : 10 ≤ (posGet idx X).length := by
          rw [hacc X, List.length_map]
          exact hfull
        have hocc := blockedC_false A unitsPre idx m B u.id X hlen10 hnb
        have hr0 : A.countP (fun u => decide ((⟨u.q, u.r⟩ : Hex) = X ∧
            (intentGet m u.id = none ∨ u.id ∈ B))) = 0 := by
          rw [List.countP_eq_zero]
          intro w hw hrw
          rw [decide_eq_true_eq] at hrw
          rcases hrw with ⟨hwx, hcase⟩
          have hwid : w.id ∈ posGet idx X := by
            rw [hacc X]
            refine List.mem_map_of_mem _ (List.mem_filter.mpr ⟨hw, ?_⟩)
            simpa using hwx
          rcases hocc w.id hwid with ⟨hany, hnbw⟩
          rcases hcase with hnone | hmemB
          · rcases isSome_intentGet_of_any m w.id hany with ⟨v2, hv2⟩
            rw [hnone] at hv2
            cases hv2
          · exact hnbw hmemB
        omega

theorem execMoves_cap (hashFn : String → Nat) (A unitsPre : List UnitState)
    (idx : PosIndex) (m : Intents)
    (hnd : (A.map (fun u => u.id)).Nodup)
    (hacc : ∀ h : Hex, posGet idx h =
      (A.filter (fun u => (⟨u.q, u.r⟩ : Hex) = h)).map (fun u => u.id))
    (hcap : ∀ h : Hex,
      (A.filter (fun u => (⟨u.q, u.r⟩ : Hex) = h)).length ≤ 10)
    (X : Hex) :
    ((execMoves A m (movementBounced hashFn A unitsPre idx m)).filter
      (fun u => (⟨u.q, u.r⟩ : Hex) = X)).length ≤ 10 :=
  execMoves_cap_core A unitsPre idx m (sortKey hashFn unitsPre) _
    hnd hacc hcap
    (phaseA_sub_movementBounced hashFn A unitsPre idx m)
    (by rw [movementBounced]; exact phaseC_stable A unitsPre idx m _) X

theorem movement_combat_cap (hashFn : String → Nat) (mapRadius : Int)
    (engC : EngineCtx) (A unitsPre : List UnitState) (idx : PosIndex)
    (mo : List Order) (ev : List Event)
    (hnd : (A.map (fun u => u.id)).Nodup)
    (hacc : ∀ h : Hex, posGet idx h =
      (A.filter (fun u => (⟨u.q, u.r⟩ : Hex) = h)).map (fun u => u.id))
    (hcap : ∀ h : Hex,
      (A.filter (fun u => (⟨u.q, u.r⟩ : Hex) = h)).length ≤ 10)
    (X : Hex) :
    (((resolve_combat engC
        (resolve_movement hashFn mapRadius A unitsPre idx mo) idx ev).1).filter
      (fun u => (⟨u.q, u.r⟩ : Hex) = X)).length ≤ 10 := by
  have h1 : (resolve_combat engC
      (resolve_movement hashFn mapRadius A unitsPre idx mo) idx ev).1 =
      applyDamage (resolve_movement hashFn mapRadius A unitsPre idx mo)
        (combatPending engC
          (resolve_movement hashFn mapRadius A unitsPre idx mo) idx ev).1 :=
    rfl
  rw [h1]
  refine le_trans (applyDamage_count _ _ X) ?_
  have h2 : resolve_movement hashFn mapRadius A unitsPre idx mo =
      execMoves A (movementIntents mapRadius unitsPre mo)
        (movementBounced hashFn A unitsPre idx
          (movementIntents mapRadius unitsPre mo)) := rfl
  rw [h2]
  exact execMoves_cap hashFn A unitsPre idx _ hnd hacc hcap X

theorem checkVictory_filter_cap (s : GameState) (X : Hex)
    (h : ((s.units.filter
      (fun u => (⟨u.q, u.r⟩ : Hex) = X)).length ≤ 10)) :
    (((checkVictory s).units.filter
      (fun u => (⟨u.q, u.r⟩ : Hex) = X)).length ≤ 10) := by
  rw [checkVictory_units]
  exact h

/-- C5: the 10-unit stack cap is an invariant of process_tick.  If the
pre-tick state has pairwise-distinct unit ids and at most 10 units on every
hex, and the uuid draws of the tick are fresh, then after the full tick
(upkeep, research, builds, movement, combat, victory check) every hex
again holds at most 10 units: builds check the indexed occupancy, sub-phase
A leaves at most one mover per target, sub-phase C blocks entry into a full
hex unless every occupant is leaving, and combat only removes units. -/
theorem C5_stack_cap (hashFn : String → Nat) (gen : Nat → String)
    (eng : EngineCtx) (state : GameState) (orders : List (String × Order))
    (hnd : (state.units.map (fun u => u.id)).Nodup)
    (hfresh : FreshGen gen state.units orders.length)
    (hcap : ∀ h : Hex,
      (state.units.filter (fun u => (⟨u.q, u.r⟩ : Hex) = h)).length ≤ 10) :
    ∀ h : Hex,
      ((process_tick hashFn gen eng state orders).2.units.filter
        (fun u => (⟨u.q, u.r⟩ : Hex) = h)).length ≤ 10 := by
  intro X
  have hup_ids : (resetMpAndUpkeep (state.tick + 1) eng.resources
      state.units).2.map (fun u => u.id) =
      state.units.map (fun u => u.id) :=
    resetMpAndUpkeep_ids _ _ _
  have hup_hex := resetMpAndUpkeep_hex (state.tick + 1) eng.resources
    state.units
  have hf1 : ∀ k < orders.length, ("u_" ++ gen k) ∉
      (resetMpAndUpkeep (state.tick + 1) eng.resources state.units).2.map
        (fun u => u.id) := by
    rw [hup_ids]
    exact hfresh.1
  have hinv := buildPhase_inv gen state.facilities
    (resetMpAndUpkeep (state.tick + 1) eng.resources state.units).2
    orders.length hf1 hfresh.2 orders
    ⟨(researchPhase { eng with resources := (resetMpAndUpkeep
        (state.tick + 1) eng.resources state.units).1 } [] orders).1,
     (resetMpAndUpkeep (state.tick + 1) eng.resources state.units).2,
     buildPosIndex (resetMpAndUpkeep (state.tick + 1) eng.resources
       state.units).2,
     (researchPhase { eng with resources := (resetMpAndUpkeep
        (state.tick + 1) eng.resources state.units).1 } [] orders).2, 0⟩
    (fun h => posGet_buildPosIndex _ h)
    (fun h => (filter_length_eq_of_map_hex _ _ hup_hex h).trans_le (hcap h))
    (by
      show ((resetMpAndUpkeep (state.tick + 1) eng.resources
        state.units).2.map (fun u => u.id)).Nodup
      rw [hup_ids]
      exact hnd)
    (fun uid hu => Or.inl hu)
    (by
      show 0 + orders.length ≤ orders.length
      omega)
  refine checkVictory_filter_cap _ X ?_
  exact movement_combat_cap hashFn eng.map_radius _ _ _ _ _ _
    hinv.2.2 hinv.1 hinv.2.1 X

/-- Witness for C5 on the two-unit fixture: the hypotheses hold and the
cap is preserved through the tick. -/
theorem C5_stack_cap_witness :
    ((fxStFar.units.map (fun u => u.id)).Nodup ∧
      FreshGen fxGen fxStFar.units fxOrdFar.length ∧
      (∀ h : Hex, (fxStFar.units.filter
        (fun u => (⟨u.q, u.r⟩ : Hex) = h)).length ≤ 10)) ∧
    (∀ h : Hex,
      ((process_tick fxHash fxGen fxEng0 fxStFar fxOrdFar).2.units.filter
        (fun u => (⟨u.q, u.r⟩ : Hex) = h)).length ≤ 10) :=
  ⟨⟨by decide, by decide,
    fun _ => le_trans (List.length_filter_le _ _) (by decide)⟩,
   C5_stack_cap fxHash fxGen fxEng0 fxStFar fxOrdFar (by decide) (by decide)
     (fun _ => le_trans (List.length_filter_le _ _) (by decide))⟩

end BattleGame
